import Mathlib

/-!
# Eyeball: an HTTP request dumper

A shallow embedding of `main.go`: the sequence `Counter`, the `Dumper`
handler `ServeHTTP`, and the standard-library functions the handler calls to
name its dump file (`fmt.Sprintf` with `%s%04d.http`, `filepath.Join`,
`filepath.Clean`), `filepath.Abs` as `main` uses it for the output directory,
and the request line and `Host` line that `Request.Write` emits
(`url.URL.RequestURI` and the host handling of net/http).

Conventions.
* A Go `string` is the list of its bytes, each byte a `Char` (`Str`).
* A Go `int` is an `Int` kept inside the range of a 64-bit machine word;
  arithmetic on it wraps around (`wrapInt`).
* The world around the handler is an explicit oracle (`Env`): it decides
  whether `os.Create` and the write of the request succeed, and it supplies
  the two outputs of net/http that are not modelled (the IDNA conversion of a
  non-ASCII host, and what `Request.Write` emits after the `Host` line). The
  handler's effects are recorded in a trace of `Event`s.
-/

namespace Eyeball

/-- A Go string. -/
abbrev Str := List Char

/-! ## Machine integers -/

/-- Width in bits of the Go type `int` (64 on amd64 and arm64). -/
def intSize : Nat := 64

/-- Largest value of type `int`. -/
def maxInt : Int := 2 ^ (intSize - 1) - 1

/-- Smallest value of type `int`. -/
def minInt : Int := -(2 ^ (intSize - 1))

/-- Two's-complement wrap-around of a mathematical integer into `int`. -/
def wrapInt (x : Int) : Int :=
  (x + 2 ^ (intSize - 1)) % 2 ^ intSize - 2 ^ (intSize - 1)

/-- The values an `int` variable can hold. -/
def InRange (x : Int) : Prop := minInt ≤ x ∧ x ≤ maxInt

instance (x : Int) : Decidable (InRange x) := by
  unfold InRange; infer_instance

/-! ## Counter (main.go, lines 25-37) -/

/-- The `Counter` struct. Its mutex `mu` guards the whole body of `Next`
(`Lock` on entry, deferred `Unlock`), which is what makes one call one atomic
transition of the stored value; the embedding takes `Next` as that
transition. -/
structure Counter where
  next : Int
deriving DecidableEq, Repr

namespace Counter

/-- The zero-valued counter every `Dumper` starts with. -/
def fresh : Counter := { next := 0 }

/-- `Counter.Next`: `next := c.next; c.next++; return next`. Returns the value
handed out and the counter afterwards. -/
def Next (c : Counter) : Int × Counter :=
  let next := c.next
  let c1 : Counter := { c with next := wrapInt (c.next + 1) }
  (next, c1)

end Counter

/-- The counter reached from `c` by `k` successive calls of `Next`. -/
def afterCalls (k : Nat) (c : Counter) : Counter :=
  (fun s => (Counter.Next s).2)^[k] c

/-- The value returned by call number `k` (counted from 0) on a fresh
counter. -/
def nthReturned (k : Nat) : Int :=
  (Counter.Next (afterCalls k Counter.fresh)).1

/-- Run a schedule: the callers listed in `sched` each perform one atomic
`Next`, in the listed order. The result pairs every caller with the value it
received. -/
def runSchedule {α : Type} : List α → Counter → List (α × Int) × Counter
  | [], c => ([], c)
  | a :: rest, c =>
    let r := Counter.Next c
    let out := runSchedule rest r.2
    ((a, r.1) :: out.1, out.2)

/-- The values handed out during a schedule, in order of execution. -/
def returnedValues {α : Type} (sched : List α) (c : Counter) : List Int :=
  (runSchedule sched c).1.map Prod.snd

/-! ## fmt: the verbs of `"%s%04d.http"` and of the log lines -/

/-- The byte `'0' + d` of a decimal digit `d`. -/
def digitByte (d : Nat) : Char := Char.ofNat (48 + d)

/-- The digit loop of `fmt.fmtInteger` in base 10,
`for u >= 10 { next := u / 10; buf[i] = '0' + u - next*10; u = next }`
followed by `buf[i] = '0' + u`; digits are produced right to left in front of
`acc`. The first argument bounds the number of iterations. -/
def fmtDigits : Nat → Nat → Str → Str
  | 0, _, acc => acc
  | fuel + 1, u, acc =>
    if 10 ≤ u then fmtDigits fuel (u / 10) (digitByte (u % 10) :: acc)
    else digitByte u :: acc

/-- The verb `%04d` applied to an `int` (`fmt.fmtInteger` with the zero flag
and width 4): the precision is the width, less one when a sign is written;
the digits are left-padded with `'0'` up to the precision and the sign goes in
front. -/
def fmtInteger (n : Int) : Str :=
  let negative := decide (n < 0)
  let u := n.natAbs
  let prec := if negative then 3 else 4
  let digits := fmtDigits (u + 1) u []
  let padded := List.replicate (prec - digits.length) '0' ++ digits
  if negative then '-' :: padded else padded

/-- The verb `%-8s`: the string, padded on the right with spaces to width 8. -/
def fmtLeft8 (s : Str) : Str := s ++ List.replicate (8 - s.length) ' '

/-- The file name `fmt.Sprintf("%s%04d.http", d.prefix, requestNumber)`. -/
def sprintfName (pfx : Str) (requestNumber : Int) : Str :=
  pfx ++ fmtInteger requestNumber ++ ".http".toList

/-- The padded sequence number in the words of the specification: the decimal
representation of `n`, left-padded with zeros to at least 4 digits. -/
def pad4 (n : Nat) : Str :=
  let ds := Nat.toDigits 10 n
  List.replicate (4 - ds.length) '0' ++ ds

/-- Inverse of the decimal rendering: the number a digit string denotes. -/
def decValue : Str → Nat
  | [] => 0
  | c :: cs => (c.toNat - 48) * 10 ^ cs.length + decValue cs

/-- Reads back a `%04d` rendering. -/
def readInteger (s : Str) : Int :=
  match s with
  | '-' :: ds => -(decValue ds : Int)
  | ds => (decValue ds : Int)

/-! ## path/filepath on Unix -/

/-- The path elements between separators, `strings.Split(path, "/")`. The
scanning loop of `Clean` visits exactly these: every iteration consumes one
separator (an empty element) or one whole element up to the next
separator. -/
def splitSep : Str → List Str
  | [] => [[]]
  | c :: cs =>
    if c = '/' then [] :: splitSep cs
    else
      match splitSep cs with
      | [] => [[c]]
      | e :: es => (c :: e) :: es

/-- The inner loop of the `..` case of `Clean`,
`for out.w > dotdot && !os.IsPathSeparator(out.index(out.w)) { out.w-- }`,
on the write index `w`. -/
def backLoop (out : Str) (dotdot : Nat) : Nat → Nat
  | 0 => 0
  | w + 1 =>
    if dotdot < w + 1 ∧ out.getD (w + 1) '/' ≠ '/' then backLoop out dotdot w
    else w + 1

/-- Backtracking over the last element written: `out.w--` and then the inner
loop. The buffer is the list of the bytes written so far. -/
def backtrack (out : Str) (dotdot : Nat) : Str :=
  out.take (backLoop out dotdot (out.length - 1))

/-- One iteration of the loop of `Clean` on the element `e`; the state is the
buffer `out` and the index `dotdot` below which `..` may not backtrack. -/
def cleanElem (rooted : Bool) (s : Str × Nat) (e : Str) : Str × Nat :=
  let out := s.1
  let dotdot := s.2
  if e = [] then s
  else if e = ['.'] then s
  else if e = ['.', '.'] then
    if dotdot < out.length then (backtrack out dotdot, dotdot)
    else if !rooted then
      let out1 := if 0 < out.length then out ++ ['/'] else out
      let out2 := out1 ++ ['.', '.']
      (out2, out2.length)
    else s
  else
    let out1 :=
      if (rooted && out.length != 1) || (!rooted && out.length != 0) then out ++ ['/']
      else out
    (out1 ++ e, dotdot)

/-- The loop of `Clean` over the path after its leading separator, if any. -/
def cleanLoop (rooted : Bool) (body : Str) : Str × Nat :=
  (splitSep body).foldl (cleanElem rooted) (if rooted then (['/'], 1) else ([], 0))

/-- `filepath.Clean`. -/
def Clean (path : Str) : Str :=
  if path = [] then ['.']
  else
    let rooted := decide (path.head? = some '/')
    let body := if rooted then path.tail else path
    let out := (cleanLoop rooted body).1
    if out.length = 0 then ['.'] else out

/-- `strings.Join(elems, "/")`. -/
def joinSep : List Str → Str
  | [] => []
  | [e] => e
  | e :: es => e ++ '/' :: joinSep es

/-- `filepath.Join`: the elements from the first non-empty one on are joined
with separators and the result is cleaned; no non-empty element gives `""`. -/
def Join : List Str → Str
  | [] => []
  | e :: es => if e ≠ [] then Clean (joinSep (e :: es)) else Join es

/-- `filepath.Dir`: `Clean` of the path up to and including its last
separator. -/
def Dir (path : Str) : Str :=
  Clean (path.reverse.dropWhile (fun c => c != '/')).reverse

/-- `filepath.Base`: the last element of the path, trailing separators
removed first. -/
def Base (path : Str) : Str :=
  if path = [] then ['.']
  else
    let stripped := (path.reverse.dropWhile (fun c => c == '/')).reverse
    let last := (stripped.reverse.takeWhile (fun c => c != '/')).reverse
    if last = [] then ['/'] else last

/-- `filepath.IsAbs`: the path starts with a separator. -/
def IsAbs (path : Str) : Bool := decide (path.head? = some '/')

/-- `filepath.Abs`: an absolute path is cleaned; any other path is joined to
the working directory that `os.Getwd` returns, whose failure is passed on. -/
def Abs (getwd : Except Str Str) (path : Str) : Except Str Str :=
  if IsAbs path then .ok (Clean path)
  else
    match getwd with
    | .error err => .error err
    | .ok wd => .ok (Join [wd, path])

/-! ## net/url -/

/-- The fields of a parsed `*url.URL` that `RequestURI` and `Request.Write`
read. -/
structure URL where
  Scheme : Str
  Opaque : Str
  Host : Str
  Path : Str
  RawPath : Str
  ForceQuery : Bool
  RawQuery : Str
deriving DecidableEq, Repr

/-- Letters and digits, `'a' <= c && c <= 'z' || 'A' <= c && c <= 'Z' ||
'0' <= c && c <= '9'`. -/
def isAlnum (c : Char) : Bool :=
  decide ((97 ≤ c.toNat ∧ c.toNat ≤ 122) ∨ (65 ≤ c.toNat ∧ c.toNat ≤ 90) ∨
    (48 ≤ c.toNat ∧ c.toNat ≤ 57))

/-- `shouldEscape(c, encodePath)`: letters, digits and `- _ . ~` are kept; of
the reserved bytes `$ & + , / : ; = ? @` only `?` is escaped; every other
byte is escaped. -/
def shouldEscape (c : Char) : Bool :=
  if isAlnum c then false
  else if ['-', '_', '.', '~'].contains c then false
  else if ['$', '&', '+', ',', '/', ':', ';', '=', '?', '@'].contains c then decide (c = '?')
  else true

/-- The hexadecimal digit `"0123456789ABCDEF"[n]`. -/
def upperhex (n : Nat) : Char := "0123456789ABCDEF".toList.getD n '0'

/-- `escape(s, encodePath)`: every byte that should be escaped becomes `%`
and its two hexadecimal digits `upperhex[c>>4]`, `upperhex[c&15]`. -/
def escape : Str → Str
  | [] => []
  | c :: cs =>
    if shouldEscape c then
      '%' :: upperhex (c.toNat / 16) :: upperhex (c.toNat % 16) :: escape cs
    else c :: escape cs

/-- `validEncoded(s, encodePath)`: every byte is one of
`! $ & ' ( ) * + , ; = : @ [ ] %` or needs no escaping. -/
def validEncoded (s : Str) : Bool :=
  s.all (fun c =>
    ['!', '$', '&', Char.ofNat 39, '(', ')', '*', '+', ',', ';', '=', ':', '@', '[', ']',
      '%'].contains c || !shouldEscape c)

/-- `ishex` of net/url. -/
def ishex (c : Char) : Bool :=
  decide ((48 ≤ c.toNat ∧ c.toNat ≤ 57) ∨ (97 ≤ c.toNat ∧ c.toNat ≤ 102) ∨
    (65 ≤ c.toNat ∧ c.toNat ≤ 70))

/-- `unhex` of net/url. -/
def unhex (c : Char) : Nat :=
  if 48 ≤ c.toNat ∧ c.toNat ≤ 57 then c.toNat - 48
  else if 97 ≤ c.toNat ∧ c.toNat ≤ 102 then c.toNat - 97 + 10
  else if 65 ≤ c.toNat ∧ c.toNat ≤ 70 then c.toNat - 65 + 10
  else 0

/-- `unescape(s, encodePath)`: every `%` must be followed by two hexadecimal
digits and the three bytes become the byte they denote; an ill-formed escape
is an error. -/
def unescape : Str → Option Str
  | [] => some []
  | c :: cs =>
    if c = '%' then
      match cs with
      | a :: b :: rest =>
        if ishex a && ishex b then
          match unescape rest with
          | some t => some (Char.ofNat (unhex a * 16 + unhex b) :: t)
          | none => none
        else none
      | _ => none
    else
      match unescape cs with
      | some t => some (c :: t)
      | none => none

namespace URL

/-- `(*URL).EscapedPath`: `RawPath` when it is a valid encoding of `Path`,
`*` for the path `*`, the escaped `Path` otherwise. -/
def EscapedPath (u : URL) : Str :=
  if u.RawPath ≠ [] ∧ validEncoded u.RawPath = true ∧ unescape u.RawPath = some u.Path then
    u.RawPath
  else if u.Path = ['*'] then ['*']
  else escape u.Path

/-- `(*URL).RequestURI`: the opaque part (behind the scheme and `:` when it
starts with `//`) or else the escaped path (`/` when that is empty), followed
by `?` and the query when there is one or `ForceQuery` is set. -/
def RequestURI (u : URL) : Str :=
  let result :=
    if u.Opaque = [] then
      if u.EscapedPath = [] then ['/'] else u.EscapedPath
    else
      match u.Opaque with
      | '/' :: '/' :: _ => u.Scheme ++ ':' :: u.Opaque
      | _ => u.Opaque
  if u.ForceQuery = true ∨ u.RawQuery ≠ [] then result ++ '?' :: u.RawQuery else result

end URL

/-! ## net/http -/

/-- The fields of a parsed `*http.Request`. -/
structure Request where
  /-- `req.Method`. -/
  Method : Str
  /-- `req.URL`, the parsed request target. -/
  URL : Eyeball.URL
  /-- `req.Proto`: the protocol version as it stood on the request line. -/
  Proto : Str
  /-- `req.Header`: the header fields, keys with their values. -/
  Header : List (Str × List Str)
  /-- `req.Body`: the bytes of the body. -/
  Body : Str
  /-- `req.ContentLength`. -/
  ContentLength : Int
  /-- `req.TransferEncoding`. -/
  TransferEncoding : List Str
  /-- `req.Close`. -/
  Close : Bool
  /-- `req.Host`. -/
  Host : Str
  /-- `req.RequestURI`: the request target as it stood on the request line. -/
  RequestURI : Str
deriving DecidableEq, Repr

/-- `valueOrDefault` of net/http. -/
def valueOrDefault (value dflt : Str) : Str :=
  if value ≠ [] then value else dflt

/-- `strings.Cut(s, " ")`: the text before and after the first space. -/
def cutSpace : Str → Option (Str × Str)
  | [] => none
  | c :: cs =>
    if c = ' ' then some ([], cs)
    else
      match cutSpace cs with
      | none => none
      | some (before, after) => some (c :: before, after)

/-- `parseRequestLine` of net/http: method, request target and protocol of a
request line. -/
def parseRequestLine (line : Str) : Option (Str × Str × Str) :=
  match cutSpace line with
  | none => none
  | some (method, rest) =>
    match cutSpace rest with
    | none => none
    | some (requestURI, proto) => some (method, requestURI, proto)

/-- The first line of a message as the server's reader takes it: the bytes in
front of the first `\n`, without a `\r` that ends them. -/
def readLine (wire : Str) : Str :=
  let line := wire.takeWhile (fun c => c != '\n')
  if line.getLast? = some '\r' then line.dropLast else line

/-- What the server guarantees about the request it hands to the handler for
the bytes `wire`: method, target and protocol are those of the first line. -/
def Received (wire : Str) (req : Request) : Prop :=
  parseRequestLine (readLine wire) = some (req.Method, req.RequestURI, req.Proto)

instance (wire : Str) (req : Request) : Decidable (Received wire req) := by
  unfold Received; infer_instance

/-- `http.StatusOK`. -/
def StatusOK : Nat := 200

/-- `http.StatusInternalServerError`. -/
def StatusInternalServerError : Nat := 500

/-- The `http.ResponseWriter` of one request: the status code once
`WriteHeader` has been called, and the body written. -/
structure ResponseWriter where
  status : Option Nat
  body : Str
deriving DecidableEq, Repr

namespace ResponseWriter

/-- The writer the server passes to the handler. -/
def new : ResponseWriter := { status := none, body := [] }

/-- `rw.WriteHeader(code)`; only the first call counts. -/
def WriteHeader (rw : ResponseWriter) (code : Nat) : ResponseWriter :=
  match rw.status with
  | none => { rw with status := some code }
  | some _ => rw

end ResponseWriter

/-- The response on the wire once the handler has returned: the server sends
`200 OK` when the handler never called `WriteHeader`. -/
structure Response where
  status : Nat
  body : Str
deriving DecidableEq, Repr

/-- The server's completion of a response after the handler returned. -/
def finishRequest (rw : ResponseWriter) : Response :=
  { status := rw.status.getD StatusOK, body := rw.body }

/-! ## The world around the handler -/

/-- A failed write: how many bytes reached the file, and the error text. -/
structure WriteError where
  written : Nat
  msg : Str

/-- The outcomes of the two file operations of the handler, and the outputs
of net/http that are taken as given. -/
structure Env where
  /-- `os.Create(name)`: success, or the error text. -/
  create : Str → Except Str Unit
  /-- The run of `req.Write(file)` that sends `bytes` to the file created as
  `name`: success, or a failure after some of the bytes were written. The
  failures are those of the file, of the body being read, and the refusals of
  `Request.Write` itself (a control byte in the target, a host that cannot be
  converted, a body that does not match `ContentLength`). -/
  write : Str → Str → Except WriteError Unit
  /-- The IDNA conversion `httpguts.PunycodeHostPort` makes of a host that
  holds a non-ASCII byte; not modelled. -/
  punycode : Str → Str
  /-- What `Request.Write` emits after the `Host` line: the `User-Agent` line,
  the `Connection`, `Content-Length` and `Transfer-Encoding` lines, the
  remaining header lines, the empty line and the body in its transfer
  encoding; not modelled. -/
  afterHost : Request → Str

/-- The effects of the handler. -/
inductive Event where
  /-- A line printed by `d.logger`. -/
  | logRequest (line : Str)
  /-- A line printed by `d.loggerError`. -/
  | logError (line : Str)
  /-- A call of `os.Create(name)`; on success a handle on `name` is open. -/
  | create (name : Str) (ok : Bool)
  /-- Bytes that reached the file `name`. -/
  | write (name : Str) (bytes : Str)
  /-- A call of `Close` on the handle of `name`. -/
  | close (name : Str)
deriving DecidableEq, Repr

/-! ## Request.Write of net/http -/

/-- `ascii.Is`: no byte above `0x7F`. -/
def isASCII (s : Str) : Bool := s.all (fun c => decide (c.toNat < 128))

/-- `httpguts.PunycodeHostPort`: an ASCII host is returned as it is. -/
def PunycodeHostPort (env : Env) (v : Str) : Str :=
  if isASCII v then v else env.punycode v

/-- The table `validHostByte` of httpguts: letters, digits and
`! $ % & ( ) * + , - . : ; = [ ' ] _ ~`. -/
def validHostByte (c : Char) : Bool :=
  isAlnum c ||
    ['!', '$', '%', '&', '(', ')', '*', '+', ',', '-', '.', ':', ';', '=', '[', Char.ofNat 39,
      ']', '_', '~'].contains c

/-- `httpguts.ValidHostHeader`: every byte is a valid host byte. -/
def ValidHostHeader (h : Str) : Bool := h.all validHostByte

/-- `strings.LastIndex(s, c)` for a single byte `c`. -/
def lastIndex (c : Char) : Str → Option Nat
  | [] => none
  | x :: xs =>
    match lastIndex c xs with
    | some i => some (i + 1)
    | none => if x = c then some 0 else none

/-- `removeZone` of net/http: in a host that starts with `[`, the text from
the last `%` in front of the last `]` up to that `]` is removed. -/
def removeZone (host : Str) : Str :=
  if host.head? ≠ some '[' then host
  else
    match lastIndex ']' host with
    | none => host
    | some i =>
      match lastIndex '%' (host.take i) with
      | none => host
      | some j => host.take j ++ host.drop i

namespace Request

/-- The host `Request.Write` puts on the `Host` line (net/http since
Go 1.20.6): `r.Host`, or `r.URL.Host` when that is empty; converted by
`PunycodeHostPort`; replaced by the empty host when it is not a valid `Host`
header; without IPv6 zone. -/
def writeHost (env : Env) (r : Request) : Str :=
  let host := if r.Host ≠ [] then r.Host else r.URL.Host
  let host := PunycodeHostPort env host
  let host := if ValidHostHeader host then host else []
  removeZone host

/-- The target `ruri` of `Request.Write`: `r.URL.RequestURI()`; for a
`CONNECT` request whose URL has an empty path, the host, or the opaque part
of the URL when there is one. -/
def writeTarget (env : Env) (r : Request) : Str :=
  let ruri := r.URL.RequestURI
  if r.Method = "CONNECT".toList ∧ r.URL.Path = [] then
    if r.URL.Opaque ≠ [] then r.URL.Opaque else writeHost env r
  else ruri

/-- The bytes `req.Write(w)` sends to `w` when it runs to its end: the request
line `fmt.Fprintf(w, "%s %s HTTP/1.1\r\n", valueOrDefault(r.Method, "GET"), ruri)`,
the line `fmt.Fprintf(w, "Host: %s\r\n", host)`, and what follows them. Whether
the run succeeds is decided by `Env.write`. -/
def Write (env : Env) (r : Request) : Str :=
  valueOrDefault r.Method "GET".toList ++ ' ' :: writeTarget env r ++ " HTTP/1.1\r\n".toList
    ++ "Host: ".toList ++ writeHost env r ++ "\r\n".toList ++ env.afterHost r

end Request

/-! ## Dumper (main.go, lines 39-64) -/

/-- The `Dumper` struct; its two loggers are the `logRequest` and `logError`
events of the trace. -/
structure Dumper where
  counter : Counter
  pfx : Str
  dir : Str
deriving DecidableEq, Repr

/-- What one call of `ServeHTTP` leaves behind. -/
structure Outcome where
  dumper : Dumper
  rw : ResponseWriter
  trace : List Event

/-- The message `"#%04d  %-8s %s"` of the request log. -/
def requestLogLine (requestNumber : Int) (req : Request) : Str :=
  '#' :: fmtInteger requestNumber ++ "  ".toList ++ fmtLeft8 req.Method ++ ' ' :: req.URL.Path

/-- The message `"#%04d  create dump file: %s"`. -/
def createErrorLine (requestNumber : Int) (err : Str) : Str :=
  '#' :: fmtInteger requestNumber ++ "  create dump file: ".toList ++ err

/-- The message `"#%04d  write dump: %s"`. -/
def writeErrorLine (requestNumber : Int) (err : Str) : Str :=
  '#' :: fmtInteger requestNumber ++ "  write dump: ".toList ++ err

/-- The path `filepath.Join(d.dir, fmt.Sprintf("%s%04d.http", d.prefix, requestNumber))`. -/
def dumpFilename (dir pfx : Str) (requestNumber : Int) : Str :=
  Join [dir, sprintfName pfx requestNumber]

/-- `Dumper.ServeHTTP`. -/
def ServeHTTP (env : Env) (d : Dumper) (rw : ResponseWriter) (req : Request) : Outcome :=
  let r := Counter.Next d.counter
  let requestNumber := r.1
  let d1 : Dumper := { d with counter := r.2 }
  let t1 := [Event.logRequest (requestLogLine requestNumber req)]
  let filename := dumpFilename d.dir d.pfx requestNumber
  match env.create filename with
  | .error err =>
    { dumper := d1
      rw := rw.WriteHeader StatusInternalServerError
      trace := t1 ++ [Event.create filename false,
        Event.logError (createErrorLine requestNumber err)] }
  | .ok _ =>
    let bytes := Request.Write env req
    match env.write filename bytes with
    | .error e =>
      { dumper := d1
        rw := rw.WriteHeader StatusInternalServerError
        trace := t1 ++ [Event.create filename true,
          Event.write filename (bytes.take e.written),
          Event.logError (writeErrorLine requestNumber e.msg)] }
    | .ok _ =>
      { dumper := d1
        rw := rw
        trace := t1 ++ [Event.create filename true, Event.write filename bytes] }

/-- One request as the server runs it: the handler gets a new writer, and the
response is completed when it returns. -/
def serve (env : Env) (d : Dumper) (req : Request) : Outcome :=
  ServeHTTP env d ResponseWriter.new req

/-- The response the client receives. -/
def response (env : Env) (d : Dumper) (req : Request) : Response :=
  finishRequest (serve env d req).rw

/-- Whether `os.Create` succeeds for this request. -/
def createOk (env : Env) (d : Dumper) : Bool :=
  match env.create (dumpFilename d.dir d.pfx d.counter.next) with
  | .ok _ => true
  | .error _ => false

/-- Whether the write of the request succeeds (given that the file exists). -/
def writeOk (env : Env) (d : Dumper) (req : Request) : Bool :=
  match env.write (dumpFilename d.dir d.pfx d.counter.next) (Request.Write env req) with
  | .ok _ => true
  | .error _ => false

/-- The bytes that reached the file `name` during a trace. -/
def fileContent (name : Str) : List Event → Str
  | [] => []
  | Event.write n bytes :: rest =>
    if n = name then bytes ++ fileContent name rest else fileContent name rest
  | _ :: rest => fileContent name rest

/-- Number of handles opened during a trace. -/
def opened : List Event → Nat
  | [] => 0
  | Event.create _ true :: rest => opened rest + 1
  | _ :: rest => opened rest

/-- Number of `Close` calls during a trace. -/
def closed : List Event → Nat
  | [] => 0
  | Event.close _ :: rest => closed rest + 1
  | _ :: rest => closed rest

/-- The name passed to `os.Create` during a trace. -/
def createdName : List Event → Option Str
  | [] => none
  | Event.create name _ :: _ => some name
  | _ :: rest => createdName rest

/-- A concrete dumper: directory `/tmp/dumps`, prefix `req_`, new counter. -/
def exampleDumper : Dumper :=
  { counter := Counter.fresh, pfx := "req_".toList, dir := "/tmp/dumps".toList }

/-- What `Request.Write` emits after the `Host` line for a `GET` request
without header fields and without body: its default `User-Agent`,
`Connection: close` when the request is not kept alive, and the empty
line. -/
def plainAfterHost (r : Request) : Str :=
  "User-Agent: Go-http-client/1.1\r\n".toList ++
    (if r.Close then "Connection: close\r\n".toList else []) ++ "\r\n".toList

/-- A world in which both file operations succeed. -/
def okEnv : Env :=
  { create := fun _ => .ok (), write := fun _ _ => .ok (),
    punycode := fun v => v, afterHost := plainAfterHost }

/-- A world in which no file can be created. -/
def readOnlyEnv : Env :=
  { create := fun _ => .error "permission denied".toList, write := fun _ _ => .ok (),
    punycode := fun v => v, afterHost := plainAfterHost }

/-- The bytes of a minimal HTTP/1.0 request. -/
def wire10 : Str := "GET / HTTP/1.0\r\n\r\n".toList

/-- The request the server hands to the handler for `wire10`: method, target
and protocol of its request line, the URL with the path `/`, no host, no
header field, no body, not kept alive. -/
def request10 : Request :=
  { Method := "GET".toList,
    URL := { Scheme := [], Opaque := [], Host := [], Path := "/".toList, RawPath := [],
             ForceQuery := false, RawQuery := [] },
    Proto := "HTTP/1.0".toList, Header := [], Body := [], ContentLength := 0,
    TransferEncoding := [], Close := true, Host := [], RequestURI := "/".toList }

/-- A request for `GET /hello?x=1 HTTP/1.1` with the header `Host: example.com`. -/
def requestHello : Request :=
  { Method := "GET".toList,
    URL := { Scheme := [], Opaque := [], Host := [], Path := "/hello".toList, RawPath := [],
             ForceQuery := false, RawQuery := "x=1".toList },
    Proto := "HTTP/1.1".toList, Header := [], Body := [], ContentLength := 0,
    TransferEncoding := [], Close := false, Host := "example.com".toList,
    RequestURI := "/hello?x=1".toList }

/-- A request for `CONNECT example.com:443 HTTP/1.1`: the authority is the
host of the URL, whose path is empty. -/
def requestConnect : Request :=
  { Method := "CONNECT".toList,
    URL := { Scheme := [], Opaque := [], Host := "example.com:443".toList, Path := [],
             RawPath := [], ForceQuery := false, RawQuery := [] },
    Proto := "HTTP/1.1".toList, Header := [], Body := [], ContentLength := 0,
    TransferEncoding := [], Close := false, Host := "example.com:443".toList,
    RequestURI := "example.com:443".toList }

/-- A URL that holds only the path `path` and the raw path `raw`. -/
def pathURL (path raw : Str) : URL :=
  { Scheme := [], Opaque := [], Host := [], Path := path, RawPath := raw,
    ForceQuery := false, RawQuery := [] }

/-- The `http` URL with the opaque part `//h/p` and a forced query. -/
def opaqueURL : URL :=
  { Scheme := "http".toList, Opaque := "//h/p".toList, Host := [], Path := [], RawPath := [],
    ForceQuery := true, RawQuery := [] }

/-- A `GET /` request without `req.Host` whose URL has the host
`[fe80::1%en0]:8080`. -/
def requestZone : Request :=
  { Method := "GET".toList,
    URL := { Scheme := [], Opaque := [], Host := "[fe80::1%en0]:8080".toList,
             Path := "/".toList, RawPath := [], ForceQuery := false, RawQuery := [] },
    Proto := "HTTP/1.1".toList, Header := [], Body := [], ContentLength := 0,
    TransferEncoding := [], Close := false, Host := [], RequestURI := "/".toList }

/-! ## Auxiliary notions used in the proofs -/

/-- The bytes of a decimal rendering. -/
def IsDigit (c : Char) : Prop := ∃ d : Nat, d < 10 ∧ c = digitByte d

/-- The digits of `u` padded with zeros, as `fmtInteger` builds them. -/
def paddedDigits (prec u : Nat) : Str :=
  List.replicate (prec - (fmtDigits (u + 1) u []).length) '0' ++ fmtDigits (u + 1) u []

/-- A real path element: not empty, not `.`, not `..`, free of separators. -/
def RealElem (e : Str) : Prop :=
  e ≠ [] ∧ e ≠ ['.'] ∧ e ≠ ['.', '.'] ∧ ∀ c ∈ e, c ≠ '/'

/-- The separator `Clean` writes in front of a real element. -/
def needSep (rooted : Bool) (out : Str) : Str :=
  if (rooted && out.length != 1) || (!rooted && out.length != 0) then ['/'] else []

/-- The state of the loop of `Clean` on a rooted path: the buffer is the
root followed by real elements joined with separators. -/
def RootedForm (s : Str × Nat) : Prop :=
  s.2 = 1 ∧ ∃ es : List Str, (∀ e ∈ es, RealElem e) ∧ s.1 = '/' :: joinSep es

/-! ## Lemmas on machine integers and the counter -/

theorem wrapInt_of_inRange {x : Int} (h : InRange x) : wrapInt x = x := by
  unfold InRange minInt maxInt intSize at h
  unfold wrapInt intSize
  norm_num at h ⊢
  omega

theorem wrapInt_inRange (x : Int) : InRange (wrapInt x) := by
  unfold InRange minInt maxInt wrapInt intSize
  norm_num
  omega

theorem wrapInt_succ (x : Int) : wrapInt (wrapInt x + 1) = wrapInt (x + 1) := by
  unfold wrapInt intSize
  norm_num
  omega

theorem wrapInt_maxInt_succ : wrapInt (maxInt + 1) = minInt := by
  decide

theorem afterCalls_succ (k : Nat) (c : Counter) :
    afterCalls (k + 1) c = (Counter.Next (afterCalls k c)).2 := by
  unfold afterCalls
  rw [Function.iterate_succ_apply']

theorem afterCalls_next (k : Nat) (c : Counter) (h : InRange c.next) :
    (afterCalls k c).next = wrapInt (c.next + k) := by
  induction k with
  | zero => simpa [afterCalls] using (wrapInt_of_inRange h).symm
  | succ k ih =>
    rw [afterCalls_succ]
    show wrapInt ((afterCalls k c).next + 1) = _
    rw [ih, wrapInt_succ]
    push_cast
    rw [add_assoc]

theorem nthReturned_eq (k : Nat) : nthReturned k = wrapInt k := by
  unfold nthReturned
  show (afterCalls k Counter.fresh).next = _
  rw [afterCalls_next k Counter.fresh (by decide)]
  simp [Counter.fresh]

theorem wrapInt_natCast_of_lt {k : Nat} (h : k < 2 ^ 63) : wrapInt (k : Int) = k := by
  apply wrapInt_of_inRange
  unfold InRange minInt maxInt intSize
  norm_num
  omega

theorem returnedValues_cons {α : Type} (a : α) (rest : List α) (c : Counter) :
    returnedValues (a :: rest) c = c.next :: returnedValues rest (Counter.Next c).2 := by
  rfl

theorem wrapInt_add (x y : Int) : wrapInt (wrapInt x + y) = wrapInt (x + y) := by
  unfold wrapInt intSize
  norm_num
  omega

theorem returnedValues_eq {α : Type} (sched : List α) :
    ∀ c : Counter, InRange c.next →
      returnedValues sched c =
        (List.range sched.length).map (fun i : Nat => wrapInt (c.next + i)) := by
  induction sched with
  | nil => intro c _; rfl
  | cons a rest ih =>
    intro c h
    rw [returnedValues_cons, ih (Counter.Next c).2 (wrapInt_inRange (c.next + 1)),
      List.length_cons, List.range_succ_eq_map, List.map_cons, List.map_map]
    have h0 : wrapInt (c.next + ((0 : Nat) : Int)) = c.next := by
      simpa using wrapInt_of_inRange h
    rw [h0]
    congr 1
    apply List.map_congr_left
    intro i _
    show wrapInt (wrapInt (c.next + 1) + i) = wrapInt (c.next + ((i + 1 : Nat) : Int))
    rw [wrapInt_add]
    push_cast
    congr 1
    ring

theorem runSchedule_callers {α : Type} (sched : List α) :
    ∀ c : Counter, (runSchedule sched c).1.map Prod.fst = sched := by
  induction sched with
  | nil => intro c; rfl
  | cons a rest ih =>
    intro c
    show a :: (runSchedule rest (Counter.Next c).2).1.map Prod.fst = a :: rest
    rw [ih]

/-! ## Lemmas on the integer formatting -/

theorem digitByte_toNat {d : Nat} (h : d < 10) : (digitByte d).toNat - 48 = d := by
  interval_cases d <;> rfl

theorem digitByte_ne_slash {d : Nat} (h : d < 10) : digitByte d ≠ '/' := by
  interval_cases d <;> decide

theorem digitByte_ne_minus {d : Nat} (h : d < 10) : digitByte d ≠ '-' := by
  interval_cases d <;> decide

theorem isDigit_zero : IsDigit '0' := ⟨0, by decide, by decide⟩

theorem decValue_append (a b : Str) :
    decValue (a ++ b) = decValue a * 10 ^ b.length + decValue b := by
  induction a with
  | nil => simp [decValue]
  | cons c cs ih =>
    show (c.toNat - 48) * 10 ^ (cs ++ b).length + decValue (cs ++ b) =
      ((c.toNat - 48) * 10 ^ cs.length + decValue cs) * 10 ^ b.length + decValue b
    rw [ih, List.length_append, pow_add]
    ring

theorem decValue_replicate_zero (k : Nat) : decValue (List.replicate k '0') = 0 := by
  induction k with
  | zero => rfl
  | succ k ih =>
    rw [List.replicate_succ, decValue, ih]
    have : ('0' : Char).toNat - 48 = 0 := by decide
    rw [this]
    simp

/-- The digit loop, given enough iterations, puts in front of `acc` a
non-empty string of digits that denotes `u`. -/
theorem fmtDigits_spec (fuel : Nat) :
    ∀ (u : Nat) (acc : Str), u < fuel →
      ∃ ds : Str, fmtDigits fuel u acc = ds ++ acc ∧ decValue ds = u ∧ ds ≠ [] ∧
        ∀ c ∈ ds, IsDigit c := by
  induction fuel with
  | zero => intro u acc h; omega
  | succ fuel ih =>
    intro u acc h
    by_cases hu : 10 ≤ u
    · have hlt : u / 10 < fuel := by omega
      obtain ⟨ds, hds, hval, -, hdig⟩ := ih (u / 10) (digitByte (u % 10) :: acc) hlt
      refine ⟨ds ++ [digitByte (u % 10)], ?_, ?_, by simp, ?_⟩
      · simp only [fmtDigits, hu, if_true, hds, List.append_assoc, List.singleton_append]
      · rw [decValue_append, hval]
        simp only [decValue, List.length_singleton, List.length_nil, pow_zero, mul_one,
          add_zero, pow_one]
        rw [digitByte_toNat (Nat.mod_lt _ (by decide))]
        omega
      · intro c hc
        rcases List.mem_append.mp hc with h1 | h1
        · exact hdig c h1
        · rw [List.mem_singleton] at h1
          exact ⟨u % 10, Nat.mod_lt _ (by decide), h1⟩
    · refine ⟨[digitByte u], ?_, ?_, by simp, ?_⟩
      · simp only [fmtDigits, hu, if_false, List.singleton_append]
      · simp only [decValue, List.length_nil, pow_zero, mul_one, add_zero]
        exact digitByte_toNat (by omega)
      · intro c hc
        rw [List.mem_singleton] at hc
        exact ⟨u, by omega, hc⟩

theorem paddedDigits_spec (prec u : Nat) :
    decValue (paddedDigits prec u) = u ∧ paddedDigits prec u ≠ [] ∧
      ∀ c ∈ paddedDigits prec u, IsDigit c := by
  obtain ⟨ds, hds, hval, hne, hdig⟩ := fmtDigits_spec (u + 1) u [] (Nat.lt_succ_self u)
  rw [List.append_nil] at hds
  unfold paddedDigits
  rw [hds]
  refine ⟨?_, by simp [hne], ?_⟩
  · rw [decValue_append, decValue_replicate_zero, hval]; simp
  · intro c hc
    rcases List.mem_append.mp hc with h1 | h1
    · rw [List.eq_of_mem_replicate h1]; exact isDigit_zero
    · exact hdig c h1

theorem fmtInteger_of_nonneg {n : Int} (h : 0 ≤ n) :
    fmtInteger n = paddedDigits 4 n.natAbs := by
  have : ¬ n < 0 := by omega
  simp [fmtInteger, paddedDigits, this]

theorem fmtInteger_of_neg {n : Int} (h : n < 0) :
    fmtInteger n = '-' :: paddedDigits 3 n.natAbs := by
  simp [fmtInteger, paddedDigits, h]

theorem readInteger_digits {ds : Str} (hne : ds ≠ []) (h : ∀ c ∈ ds, IsDigit c) :
    readInteger ds = (decValue ds : Int) := by
  cases ds with
  | nil => exact absurd rfl hne
  | cons c cs =>
    obtain ⟨d, hd, hc⟩ := h c (List.mem_cons_self _ _)
    have hm : c ≠ '-' := hc ▸ digitByte_ne_minus hd
    unfold readInteger
    split
    · rename_i heq
      exact absurd (List.cons.inj heq).1 hm
    · rfl

/-- Reading back a `%04d` rendering gives the number that was formatted. -/
theorem readInteger_fmtInteger (n : Int) : readInteger (fmtInteger n) = n := by
  by_cases h : n < 0
  · rw [fmtInteger_of_neg h]
    show -(decValue (paddedDigits 3 n.natAbs) : Int) = n
    rw [(paddedDigits_spec 3 n.natAbs).1]
    omega
  · have h0 : 0 ≤ n := by omega
    rw [fmtInteger_of_nonneg h0]
    obtain ⟨hval, hne, hdig⟩ := paddedDigits_spec 4 n.natAbs
    rw [readInteger_digits hne hdig, hval]
    omega

theorem fmtInteger_injective {m n : Int} (h : fmtInteger m = fmtInteger n) : m = n := by
  rw [← readInteger_fmtInteger m, ← readInteger_fmtInteger n, h]

theorem fmtInteger_no_slash (n : Int) : ∀ c ∈ fmtInteger n, c ≠ '/' := by
  have hd : ∀ prec u, ∀ c ∈ paddedDigits prec u, c ≠ '/' := by
    intro prec u c hc
    obtain ⟨d, hd, rfl⟩ := (paddedDigits_spec prec u).2.2 c hc
    exact digitByte_ne_slash hd
  intro c hc
  by_cases h : n < 0
  · rw [fmtInteger_of_neg h] at hc
    rcases List.mem_cons.mp hc with h1 | h1
    · rw [h1]; decide
    · exact hd _ _ c h1
  · rw [fmtInteger_of_nonneg (by omega)] at hc
    exact hd _ _ c hc

theorem digitByte_eq_digitChar {d : Nat} (h : d < 10) : digitByte d = Nat.digitChar d := by
  interval_cases d <;> rfl

/-- The digit loop of `fmt` computes the standard decimal representation. -/
theorem fmtDigits_eq_toDigitsCore (fuel : Nat) :
    ∀ (u : Nat) (acc : Str), fmtDigits fuel u acc = Nat.toDigitsCore 10 fuel u acc := by
  induction fuel with
  | zero => intro u acc; rfl
  | succ fuel ih =>
    intro u acc
    by_cases hu : 10 ≤ u
    · have h1 : ¬ u / 10 = 0 := by omega
      simp only [fmtDigits, hu, if_true, Nat.toDigitsCore, h1, if_false]
      rw [ih, digitByte_eq_digitChar (Nat.mod_lt _ (by decide))]
    · have h1 : u / 10 = 0 := by omega
      have h2 : u % 10 = u := by omega
      simp only [fmtDigits, hu, if_false, Nat.toDigitsCore, h1, if_true, h2]
      rw [digitByte_eq_digitChar (by omega)]

theorem paddedDigits_four (n : Nat) : paddedDigits 4 n = pad4 n := by
  unfold paddedDigits pad4 Nat.toDigits
  rw [fmtDigits_eq_toDigitsCore]

theorem fmtDigits_length_le (fuel : Nat) :
    ∀ (u k : Nat) (acc : Str), 1 ≤ k → u < 10 ^ k →
      (fmtDigits fuel u acc).length ≤ k + acc.length := by
  induction fuel with
  | zero => intro u k acc _ _; simp [fmtDigits]
  | succ fuel ih =>
    intro u k acc hk hu
    by_cases h10 : 10 ≤ u
    · have hk2 : 2 ≤ k := by
        by_contra hcon
        have : k = 1 := by omega
        subst this
        omega
      have hdiv : u / 10 < 10 ^ (k - 1) := by
        have hpow : 10 ^ k = 10 ^ (k - 1) * 10 := by
          rw [← pow_succ]; congr 1; omega
        rw [hpow] at hu
        exact Nat.div_lt_of_lt_mul (by rw [Nat.mul_comm]; exact hu)
      have := ih (u / 10) (k - 1) (digitByte (u % 10) :: acc) (by omega) hdiv
      simp only [fmtDigits, h10, if_true]
      simp only [List.length_cons] at this
      omega
    · simp only [fmtDigits, h10, if_false, List.length_cons]
      omega

theorem decValue_lt {ds : Str} (h : ∀ c ∈ ds, IsDigit c) : decValue ds < 10 ^ ds.length := by
  induction ds with
  | nil => simp [decValue]
  | cons c cs ih =>
    obtain ⟨d, hd, hc⟩ := h c (List.mem_cons_self _ _)
    have ih1 := ih (fun x hx => h x (List.mem_cons_of_mem _ hx))
    simp only [decValue, List.length_cons]
    rw [hc, digitByte_toNat hd, pow_succ]
    have : d * 10 ^ cs.length ≤ 9 * 10 ^ cs.length := Nat.mul_le_mul_right _ (by omega)
    omega

/-- The padded number of the specification has exactly 4 digits up to 9999. -/
theorem pad4_length_of_le {n : Nat} (h : n ≤ 9999) : (pad4 n).length = 4 := by
  rw [← paddedDigits_four]
  have hlen := fmtDigits_length_le (n + 1) n 4 [] (by decide) (by omega)
  unfold paddedDigits
  rw [List.length_append, List.length_replicate]
  simp only [List.length_nil] at hlen
  omega

/-- From 10000 on the padded number is the plain decimal representation. -/
theorem pad4_of_ge {n : Nat} (h : 10000 ≤ n) : pad4 n = Nat.toDigits 10 n := by
  obtain ⟨ds, hds, hval, -, hdig⟩ := fmtDigits_spec (n + 1) n [] (Nat.lt_succ_self n)
  rw [List.append_nil, fmtDigits_eq_toDigitsCore] at hds
  have hlt := decValue_lt hdig
  rw [hval] at hlt
  have hlen : 4 < ds.length := by
    by_contra hcon
    have : (10 : Nat) ^ ds.length ≤ 10 ^ 4 := Nat.pow_le_pow_right (by decide) (by omega)
    omega
  unfold pad4 Nat.toDigits
  rw [hds]
  have : 4 - ds.length = 0 := by omega
  show List.replicate (4 - ds.length) '0' ++ ds = ds
  rw [this]
  rfl

/-! ## Lemmas on paths -/

theorem splitSep_ne_nil (s : Str) : splitSep s ≠ [] := by
  cases s with
  | nil => simp [splitSep]
  | cons c cs =>
    unfold splitSep
    split
    · simp
    · split <;> simp

theorem splitSep_no_slash {e : Str} (h : ∀ c ∈ e, c ≠ '/') : splitSep e = [e] := by
  induction e with
  | nil => rfl
  | cons c cs ih =>
    have hc : c ≠ '/' := h c (List.mem_cons_self _ _)
    have ih1 := ih (fun x hx => h x (List.mem_cons_of_mem _ hx))
    simp [splitSep, hc, ih1]

theorem splitSep_append_sep (xs ys : Str) :
    splitSep (xs ++ '/' :: ys) = splitSep xs ++ splitSep ys := by
  induction xs with
  | nil => simp [splitSep]
  | cons c cs ih =>
    by_cases hc : c = '/'
    · simp [splitSep, hc, ih]
    · rw [List.cons_append]
      simp only [splitSep, hc, if_false, ih]
      cases hs : splitSep cs with
      | nil => exact absurd hs (splitSep_ne_nil cs)
      | cons e es => simp

/-- Every string is free of separators or ends in a separator-free element
after its last separator. -/
theorem last_element (s : Str) :
    (∀ c ∈ s, c ≠ '/') ∨ ∃ q e : Str, s = q ++ '/' :: e ∧ ∀ c ∈ e, c ≠ '/' := by
  induction s with
  | nil => left; simp
  | cons c cs ih =>
    rcases ih with h | ⟨q, e, hs, he⟩
    · by_cases hc : c = '/'
      · right
        exact ⟨[], cs, by simp [hc], h⟩
      · left
        intro x hx
        rcases List.mem_cons.mp hx with h1 | h1
        · rw [h1]; exact hc
        · exact h x h1
    · right
      exact ⟨c :: q, e, by simp [hs], he⟩

theorem cleanElem_real (rooted : Bool) (s : Str × Nat) {e : Str} (h : RealElem e) :
    cleanElem rooted s e = (s.1 ++ needSep rooted s.1 ++ e, s.2) := by
  obtain ⟨h1, h2, h3, -⟩ := h
  unfold cleanElem needSep
  simp only [h1, h2, h3, if_false]
  split <;> simp

theorem cleanElem_nil (rooted : Bool) (s : Str × Nat) : cleanElem rooted s [] = s := by
  simp [cleanElem]

theorem cleanLoop_snoc (rooted : Bool) (body : Str) {e : Str} (h : ∀ c ∈ e, c ≠ '/') :
    cleanLoop rooted (body ++ '/' :: e) = cleanElem rooted (cleanLoop rooted body) e := by
  unfold cleanLoop
  rw [splitSep_append_sep, splitSep_no_slash h, List.foldl_append]
  rfl

theorem cleanLoop_single (rooted : Bool) {e : Str} (h : ∀ c ∈ e, c ≠ '/') :
    cleanLoop rooted e = cleanElem rooted (if rooted then (['/'], 1) else ([], 0)) e := by
  unfold cleanLoop
  rw [splitSep_no_slash h]
  rfl

theorem Clean_rooted (body : Str) :
    Clean ('/' :: body) =
      if (cleanLoop true body).1.length = 0 then ['.'] else (cleanLoop true body).1 := by
  simp [Clean]

theorem Clean_unrooted {c : Char} (hc : c ≠ '/') (rest : Str) :
    Clean (c :: rest) =
      if (cleanLoop false (c :: rest)).1.length = 0 then ['.']
      else (cleanLoop false (c :: rest)).1 := by
  simp [Clean, hc]

/-- A real element alone is clean. -/
theorem Clean_elem {e : Str} (h : RealElem e) : Clean e = e := by
  obtain ⟨c, cs, rfl⟩ := List.exists_cons_of_ne_nil h.1
  have hc : c ≠ '/' := h.2.2.2 c (List.mem_cons_self _ _)
  rw [Clean_unrooted hc, cleanLoop_single false h.2.2.2, cleanElem_real _ _ h]
  simp [needSep]

/-- Cleaning a path that ends in a real element after a separator: the
element is kept as it is, behind a text that depends on the rest only. -/
theorem Clean_snoc (x : Str) : ∃ a : Str, ∀ e : Str, RealElem e → Clean (x ++ '/' :: e) = a ++ e := by
  cases x with
  | nil =>
    refine ⟨['/'], fun e h => ?_⟩
    rw [List.nil_append, Clean_rooted, cleanLoop_single true h.2.2.2, cleanElem_real _ _ h]
    simp [needSep]
  | cons c rest =>
    by_cases hc : c = '/'
    · subst hc
      refine ⟨(cleanLoop true rest).1 ++ needSep true (cleanLoop true rest).1, fun e h => ?_⟩
      rw [List.cons_append, Clean_rooted, cleanLoop_snoc true rest h.2.2.2, cleanElem_real _ _ h]
      have : e.length ≠ 0 := by simpa using h.1
      simp [this]
    · refine ⟨(cleanLoop false (c :: rest)).1 ++ needSep false (cleanLoop false (c :: rest)).1,
        fun e h => ?_⟩
      rw [List.cons_append, Clean_unrooted hc, ← List.cons_append,
        cleanLoop_snoc false (c :: rest) h.2.2.2, cleanElem_real _ _ h]
      have : e.length ≠ 0 := by simpa using h.1
      simp [this]

/-- The last element of a dump name is a real path element. -/
theorem realElem_name {e : Str} (he : ∀ c ∈ e, c ≠ '/') (n : Int) :
    RealElem (e ++ fmtInteger n ++ ".http".toList) := by
  have hlen : 5 ≤ (e ++ fmtInteger n ++ ".http".toList).length := by
    rw [List.length_append]
    have : (".http".toList).length = 5 := by decide
    omega
  refine ⟨?_, ?_, ?_, ?_⟩
  · intro h; rw [h] at hlen; simp at hlen
  · intro h; rw [h] at hlen; simp at hlen
  · intro h; rw [h] at hlen; simp at hlen
  · intro c hc
    rcases List.mem_append.mp hc with h1 | h1
    · rcases List.mem_append.mp h1 with h2 | h2
      · exact he c h2
      · exact fmtInteger_no_slash n c h2
    · have hx : ∀ x ∈ ".http".toList, x ≠ '/' := by decide
      exact hx c h1

theorem sprintfName_ne_nil (pfx : Str) (n : Int) : sprintfName pfx n ≠ [] := by
  unfold sprintfName
  intro h
  have := congrArg List.length h
  rw [List.length_append] at this
  have h5 : (".http".toList).length = 5 := by decide
  simp only [List.length_nil] at this
  omega

/-- The dump path is a text that depends on directory and prefix only,
followed by the padded number and `.http`. -/
theorem dumpFilename_shape (dir pfx : Str) :
    ∃ a : Str, ∀ n : Int, dumpFilename dir pfx n = a ++ fmtInteger n ++ ".http".toList := by
  have join_dir : ∀ name : Str, dir ≠ [] → Join [dir, name] = Clean (dir ++ '/' :: name) := by
    intro name hd
    simp [Join, hd, joinSep]
  have join_nil : ∀ name : Str, name ≠ [] → Join [[], name] = Clean name := by
    intro name hn
    simp [Join, hn, joinSep]
  rcases last_element pfx with hp | ⟨q, e, hq, he⟩
  · by_cases hd : dir = []
    · refine ⟨pfx, fun n => ?_⟩
      unfold dumpFilename
      rw [hd, join_nil _ (sprintfName_ne_nil pfx n)]
      exact Clean_elem (realElem_name hp n)
    · obtain ⟨a, ha⟩ := Clean_snoc dir
      refine ⟨a ++ pfx, fun n => ?_⟩
      unfold dumpFilename
      rw [join_dir _ hd]
      show Clean (dir ++ '/' :: (pfx ++ fmtInteger n ++ ".http".toList)) = _
      rw [ha _ (realElem_name hp n)]
      simp
  · by_cases hd : dir = []
    · obtain ⟨a, ha⟩ := Clean_snoc q
      refine ⟨a ++ e, fun n => ?_⟩
      unfold dumpFilename
      rw [hd, join_nil _ (sprintfName_ne_nil pfx n)]
      have : sprintfName pfx n = q ++ '/' :: (e ++ fmtInteger n ++ ".http".toList) := by
        simp [sprintfName, hq]
      rw [this, ha _ (realElem_name he n)]
      simp
    · obtain ⟨a, ha⟩ := Clean_snoc (dir ++ '/' :: q)
      refine ⟨a ++ e, fun n => ?_⟩
      unfold dumpFilename
      rw [join_dir _ hd]
      have : dir ++ '/' :: sprintfName pfx n =
          (dir ++ '/' :: q) ++ '/' :: (e ++ fmtInteger n ++ ".http".toList) := by
        simp [sprintfName, hq]
      rw [this, ha _ (realElem_name he n)]
      simp

theorem dumpFilename_injective (dir pfx : Str) {m n : Int}
    (h : dumpFilename dir pfx m = dumpFilename dir pfx n) : m = n := by
  obtain ⟨a, ha⟩ := dumpFilename_shape dir pfx
  rw [ha m, ha n] at h
  have h1 := List.append_cancel_right h
  exact fmtInteger_injective (List.append_cancel_left h1)

theorem backLoop_le (out : Str) (dotdot : Nat) : ∀ w : Nat, backLoop out dotdot w ≤ w := by
  intro w
  induction w with
  | zero => simp [backLoop]
  | succ w ih =>
    unfold backLoop
    split
    · omega
    · omega

theorem backLoop_ge (out : Str) (dotdot : Nat) :
    ∀ w : Nat, dotdot ≤ w → dotdot ≤ backLoop out dotdot w := by
  intro w
  induction w with
  | zero => intro h; simpa [backLoop] using h
  | succ w ih =>
    intro h
    unfold backLoop
    split
    · rename_i hc
      exact ih (by omega)
    · exact h

theorem backtrack_length {out : Str} {dotdot : Nat} (h : dotdot < out.length) :
    dotdot ≤ (backtrack out dotdot).length := by
  unfold backtrack
  rw [List.length_take]
  have h1 := backLoop_ge out dotdot (out.length - 1) (by omega)
  have h2 := backLoop_le out dotdot (out.length - 1)
  omega

/-- In a rooted path the buffer always keeps its leading separator. -/
theorem cleanElem_rooted_inv (s : Str × Nat) (e : Str) (h : s.2 = 1 ∧ 1 ≤ s.1.length) :
    (cleanElem true s e).2 = 1 ∧ 1 ≤ (cleanElem true s e).1.length := by
  obtain ⟨h1, h2⟩ := h
  simp only [cleanElem]
  split_ifs with c1 c2 c3 c4 c5 c6 c7
  · exact ⟨h1, h2⟩
  · exact ⟨h1, h2⟩
  · refine ⟨h1, ?_⟩
    have := backtrack_length c4
    rw [h1] at this ⊢
    exact this
  · simp at c5
  · simp at c5
  · exact ⟨h1, h2⟩
  · refine ⟨h1, ?_⟩
    simp only [List.length_append]
    omega
  · refine ⟨h1, ?_⟩
    simp only [List.length_append]
    omega

theorem foldl_rooted_inv (es : List Str) :
    ∀ s : Str × Nat, (s.2 = 1 ∧ 1 ≤ s.1.length) →
      ((es.foldl (cleanElem true) s).2 = 1 ∧ 1 ≤ (es.foldl (cleanElem true) s).1.length) := by
  induction es with
  | nil => intro s h; exact h
  | cons e es ih =>
    intro s h
    exact ih _ (cleanElem_rooted_inv s e h)

theorem cleanLoop_rooted_length (body : Str) : 1 ≤ (cleanLoop true body).1.length := by
  unfold cleanLoop
  exact (foldl_rooted_inv (splitSep body) (['/'], 1) ⟨rfl, by simp⟩).2

/-- An absolute clean directory followed by a separator and a real element
is cleaned to the directory, a separator unless the directory is the root,
and the element. -/
theorem Clean_abs_snoc {d e : Str} (habs : d.head? = some '/') (hclean : Clean d = d)
    (he : RealElem e) : Clean (d ++ '/' :: e) = d ++ needSep true d ++ e := by
  cases d with
  | nil => simp at habs
  | cons c body =>
    have hc : c = '/' := by simpa using habs
    subst hc
    have hlen := cleanLoop_rooted_length body
    have hout : (cleanLoop true body).1 = '/' :: body := by
      rw [Clean_rooted] at hclean
      have : ¬ (cleanLoop true body).1.length = 0 := by omega
      rwa [if_neg this] at hclean
    rw [List.cons_append, Clean_rooted, cleanLoop_snoc true body he.2.2.2, cleanElem_real _ _ he,
      hout]
    simp

/-- An absolute clean directory followed by a separator is cleaned to the
directory. -/
theorem Clean_abs_sep {d : Str} (habs : d.head? = some '/') (hclean : Clean d = d) :
    Clean (d ++ ['/']) = d := by
  cases d with
  | nil => simp at habs
  | cons c body =>
    have hc : c = '/' := by simpa using habs
    subst hc
    have hlen := cleanLoop_rooted_length body
    have hout : (cleanLoop true body).1 = '/' :: body := by
      rw [Clean_rooted] at hclean
      have : ¬ (cleanLoop true body).1.length = 0 := by omega
      rwa [if_neg this] at hclean
    have hnil : ∀ c ∈ ([] : Str), c ≠ '/' := by simp
    rw [List.cons_append, Clean_rooted, cleanLoop_snoc true body hnil, cleanElem_nil, hout]
    simp

theorem splitSep_mem_no_slash (s : Str) : ∀ e ∈ splitSep s, ∀ c ∈ e, c ≠ '/' := by
  induction s with
  | nil => intro e he; simp [splitSep] at he; simp [he]
  | cons x xs ih =>
    intro e he
    by_cases hx : x = '/'
    · simp only [splitSep, hx, if_true, List.mem_cons] at he
      rcases he with h1 | h1
      · simp [h1]
      · exact ih e h1
    · simp only [splitSep, hx, if_false] at he
      cases hs : splitSep xs with
      | nil => exact absurd hs (splitSep_ne_nil xs)
      | cons e0 es =>
        rw [hs] at he ih
        simp only [List.mem_cons] at he
        rcases he with h1 | h1
        · intro c hc
          rw [h1] at hc
          rcases List.mem_cons.mp hc with h2 | h2
          · rw [h2]; exact hx
          · exact ih e0 (List.mem_cons_self _ _) c h2
        · exact ih e (List.mem_cons_of_mem _ h1)

theorem joinSep_snoc (es : List Str) (e : Str) (h : es ≠ []) :
    joinSep (es ++ [e]) = joinSep es ++ '/' :: e := by
  induction es with
  | nil => exact absurd rfl h
  | cons x xs ih =>
    cases xs with
    | nil => rfl
    | cons y ys =>
      have := ih (by simp)
      show x ++ '/' :: joinSep ((y :: ys) ++ [e]) = (x ++ '/' :: joinSep (y :: ys)) ++ '/' :: e
      rw [this]
      simp

theorem joinSep_ne_nil {es : List Str} (hes : ∀ e ∈ es, RealElem e) (h : es ≠ []) :
    joinSep es ≠ [] := by
  cases es with
  | nil => exact absurd rfl h
  | cons y ys =>
    have hy := (hes y (List.mem_cons_self _ _)).1
    cases ys with
    | nil => exact hy
    | cons z zs =>
      show y ++ '/' :: joinSep (z :: zs) ≠ []
      simp

theorem needSep_joinSep {es : List Str} (hes : ∀ e ∈ es, RealElem e) (h : es ≠ []) :
    needSep true ('/' :: joinSep es) = ['/'] := by
  have hne := joinSep_ne_nil hes h
  have hlen : (joinSep es).length ≠ 0 := fun hcon => hne (List.eq_nil_of_length_eq_zero hcon)
  simp only [needSep]
  simp [hlen]

/-- The inner loop of the `..` case walks back over a separator-free element
and stops at the separator in front of it, or at `dotdot`. -/
theorem backLoop_elem (p : Str) (c : Char) (e : Str) (dotdot : Nat)
    (he : ∀ x ∈ e, x ≠ '/') (hdd : dotdot ≤ p.length) (hc : c = '/' ∨ dotdot = p.length) :
    ∀ k : Nat, k ≤ e.length → backLoop (p ++ c :: e) dotdot (p.length + k) = p.length := by
  intro k
  induction k with
  | zero =>
    intro _
    rw [Nat.add_zero]
    cases hp : p.length with
    | zero => rfl
    | succ m =>
      unfold backLoop
      rw [if_neg]
      intro hcond
      rcases hc with h1 | h1
      · apply hcond.2
        rw [← hp, List.getD_append_right _ _ _ _ (Nat.le_refl _), Nat.sub_self, h1]
        rfl
      · omega
  | succ k ih =>
    intro hk
    have hidx : (p ++ c :: e).getD (p.length + k + 1) '/' ≠ '/' := by
      rw [List.getD_append_right _ _ _ _ (by omega)]
      have h1 : p.length + k + 1 - p.length = k + 1 := by omega
      rw [h1]
      show e.getD k '/' ≠ '/'
      rw [List.getD_eq_getElem _ _ (by omega)]
      exact he _ (List.getElem_mem _)
    show backLoop (p ++ c :: e) dotdot (p.length + k + 1) = p.length
    unfold backLoop
    rw [if_pos ⟨by omega, hidx⟩]
    exact ih (by omega)

/-- In a rooted buffer `..` removes the last element. -/
theorem backtrack_snoc (es : List Str) {e : Str} (he : RealElem e) :
    backtrack ('/' :: joinSep (es ++ [e])) 1 = '/' :: joinSep es := by
  obtain ⟨c, cs, rfl⟩ := List.exists_cons_of_ne_nil he.1
  by_cases hes : es = []
  · subst hes
    have hc : ∀ x ∈ cs, x ≠ '/' := fun x hx => he.2.2.2 x (List.mem_cons_of_mem _ hx)
    have hb := backLoop_elem ['/'] c cs 1 hc (by simp) (Or.inr rfl) cs.length (Nat.le_refl _)
    unfold backtrack
    show List.take (backLoop (['/'] ++ c :: cs) 1 ((['/'] ++ c :: cs).length - 1))
      (['/'] ++ c :: cs) = ['/']
    have hlen : (['/'] ++ c :: cs).length - 1 = (['/'] : Str).length + cs.length := by
      simp
      omega
    rw [hlen, hb]
    rfl
  · rw [joinSep_snoc es _ hes]
    have hb := backLoop_elem ('/' :: joinSep es) '/' (c :: cs) 1 he.2.2.2 (by simp) (Or.inl rfl)
      (c :: cs).length (Nat.le_refl _)
    unfold backtrack
    show List.take (backLoop (('/' :: joinSep es) ++ '/' :: (c :: cs)) 1
      ((('/' :: joinSep es) ++ '/' :: (c :: cs)).length - 1))
      (('/' :: joinSep es) ++ '/' :: (c :: cs)) = '/' :: joinSep es
    have hlen : (('/' :: joinSep es) ++ '/' :: (c :: cs)).length - 1 =
        ('/' :: joinSep es).length + (c :: cs).length := by
      simp
      omega
    rw [hlen, hb, List.take_left]

/-- One iteration of the loop of `Clean` keeps a rooted buffer in its form. -/
theorem cleanElem_rootedForm (s : Str × Nat) (e : Str) (he : ∀ c ∈ e, c ≠ '/')
    (h : RootedForm s) : RootedForm (cleanElem true s e) := by
  by_cases h1 : e = []
  · simpa [cleanElem, h1] using h
  by_cases h2 : e = ['.']
  · simpa [cleanElem, h2] using h
  by_cases h3 : e = ['.', '.']
  · obtain ⟨hdd, es, hes, hs⟩ := h
    by_cases hlt : s.2 < s.1.length
    · have hstep : cleanElem true s e = (backtrack s.1 s.2, s.2) := by
        simp [cleanElem, h3, hlt]
      rw [hstep]
      refine ⟨hdd, ?_⟩
      induction es using List.reverseRecOn with
      | nil =>
        rw [hs, hdd] at hlt
        simp [joinSep] at hlt
      | append_singleton rest last _ =>
        refine ⟨rest, fun x hx => hes x (List.mem_append_left _ hx), ?_⟩
        show backtrack s.1 s.2 = _
        rw [hs, hdd]
        exact backtrack_snoc rest (hes last (by simp))
    · have hstep : cleanElem true s e = s := by
        simp [cleanElem, h3, hlt]
      rw [hstep]
      exact ⟨hdd, es, hes, hs⟩
  · have hreal : RealElem e := ⟨h1, h2, h3, he⟩
    rw [cleanElem_real true s hreal]
    obtain ⟨hdd, es, hes, hs⟩ := h
    refine ⟨hdd, es ++ [e], ?_, ?_⟩
    · intro x hx
      rcases List.mem_append.mp hx with hx1 | hx1
      · exact hes x hx1
      · rw [List.mem_singleton] at hx1
        rw [hx1]; exact hreal
    · show s.1 ++ needSep true s.1 ++ e = _
      by_cases hnil : es = []
      · subst hnil
        rw [hs]
        rfl
      · rw [joinSep_snoc es e hnil, hs, needSep_joinSep hes hnil]
        simp

theorem foldl_rootedForm (es : List Str) (hes : ∀ e ∈ es, ∀ c ∈ e, c ≠ '/') :
    ∀ s : Str × Nat, RootedForm s → RootedForm (es.foldl (cleanElem true) s) := by
  induction es with
  | nil => intro s h; exact h
  | cons e rest ih =>
    intro s h
    exact ih (fun x hx => hes x (List.mem_cons_of_mem _ hx)) _
      (cleanElem_rootedForm s e (hes e (List.mem_cons_self _ _)) h)

/-- The buffer of `Clean` after a rooted path: the root and real elements. -/
theorem cleanLoop_rootedForm (body : Str) : RootedForm (cleanLoop true body) := by
  unfold cleanLoop
  exact foldl_rootedForm _ (splitSep_mem_no_slash body) _ ⟨rfl, [], by simp, rfl⟩

theorem cleanLoop_joinSep (es : List Str) (hes : ∀ e ∈ es, RealElem e) :
    (cleanLoop true (joinSep es)).1 = '/' :: joinSep es := by
  induction es using List.reverseRecOn with
  | nil => rfl
  | append_singleton rest last ih =>
    have hlast : RealElem last := hes last (by simp)
    have hrest : ∀ e ∈ rest, RealElem e := fun x hx => hes x (List.mem_append_left _ hx)
    by_cases hnil : rest = []
    · subst hnil
      show (cleanLoop true last).1 = '/' :: last
      rw [cleanLoop_single true hlast.2.2.2, cleanElem_real _ _ hlast]
      rfl
    · rw [joinSep_snoc rest last hnil, cleanLoop_snoc true _ hlast.2.2.2,
        cleanElem_real _ _ hlast]
      show (cleanLoop true (joinSep rest)).1 ++ needSep true (cleanLoop true (joinSep rest)).1
        ++ last = _
      rw [ih hrest, needSep_joinSep hrest hnil]
      simp

/-- Cleaning a rooted path gives a rooted path that is clean. -/
theorem Clean_rooted_clean (body : Str) :
    (Clean ('/' :: body)).head? = some '/' ∧ Clean (Clean ('/' :: body)) = Clean ('/' :: body) := by
  obtain ⟨-, es, hes, hs⟩ := cleanLoop_rootedForm body
  have hlen := cleanLoop_rooted_length body
  have hout : Clean ('/' :: body) = '/' :: joinSep es := by
    rw [Clean_rooted, if_neg (by omega), hs]
  rw [hout]
  refine ⟨rfl, ?_⟩
  rw [Clean_rooted, cleanLoop_joinSep es hes]
  simp

/-- The directory `filepath.Abs` returns is absolute and clean, the working
directory being absolute. -/
theorem Abs_clean {getwd : Except Str Str} {path d : Str}
    (hwd : ∀ wd, getwd = .ok wd → wd.head? = some '/') (h : Abs getwd path = .ok d) :
    d.head? = some '/' ∧ Clean d = d := by
  unfold Abs at h
  by_cases habs : IsAbs path = true
  · rw [if_pos habs] at h
    have hd : d = Clean path := by
      injection h with h1
      exact h1.symm
    cases path with
    | nil => simp [IsAbs] at habs
    | cons c body =>
      have hc : c = '/' := by simpa [IsAbs] using habs
      subst hc
      rw [hd]
      exact Clean_rooted_clean body
  · rw [if_neg habs] at h
    cases hg : getwd with
    | error err => rw [hg] at h; simp at h
    | ok wd =>
      rw [hg] at h
      have hd : d = Join [wd, path] := by
        injection h with h1
        exact h1.symm
      have hw := hwd wd hg
      cases wd with
      | nil => simp at hw
      | cons c body =>
        have hc : c = '/' := by simpa using hw
        subst hc
        have hj : Join ['/' :: body, path] = Clean ('/' :: (body ++ '/' :: path)) := by
          simp [Join, joinSep]
        rw [hd, hj]
        exact Clean_rooted_clean _

theorem dropWhile_stop {α : Type} (p : α → Bool) (l1 : List α) (a : α) (l2 : List α)
    (h1 : ∀ x ∈ l1, p x = true) (ha : p a = false) :
    (l1 ++ a :: l2).dropWhile p = a :: l2 := by
  induction l1 with
  | nil => simp [List.dropWhile, ha]
  | cons x xs ih =>
    have hx := h1 x (List.mem_cons_self _ _)
    simp only [List.cons_append, List.dropWhile, hx]
    exact ih (fun y hy => h1 y (List.mem_cons_of_mem _ hy))

theorem takeWhile_stop {α : Type} (p : α → Bool) (l1 : List α) (a : α) (l2 : List α)
    (h1 : ∀ x ∈ l1, p x = true) (ha : p a = false) :
    (l1 ++ a :: l2).takeWhile p = l1 := by
  induction l1 with
  | nil => simp [List.takeWhile, ha]
  | cons x xs ih =>
    have hx := h1 x (List.mem_cons_self _ _)
    have ih1 := ih (fun y hy => h1 y (List.mem_cons_of_mem _ hy))
    simp only [List.cons_append, List.takeWhile, hx]
    exact congrArg (List.cons x) ih1

/-- The part of a path that `Dir` cleans, when the path ends in a
separator-free element. -/
theorem dirPart_snoc (x : Str) {e : Str} (he : ∀ c ∈ e, c ≠ '/') :
    ((x ++ '/' :: e).reverse.dropWhile (fun c => c != '/')).reverse = x ++ ['/'] := by
  have hrev : (x ++ '/' :: e).reverse = e.reverse ++ '/' :: x.reverse := by simp
  rw [hrev, dropWhile_stop]
  · simp
  · intro c hc
    simpa using he c (List.mem_reverse.mp hc)
  · simp

theorem Base_snoc (x : Str) {e : Str} (hne : e ≠ []) (he : ∀ c ∈ e, c ≠ '/') :
    Base (x ++ '/' :: e) = e := by
  have hrev : (x ++ '/' :: e).reverse = e.reverse ++ '/' :: x.reverse := by simp
  obtain ⟨c, cs, hcs⟩ := List.exists_cons_of_ne_nil (fun h => hne (List.reverse_eq_nil_iff.mp h))
  have hc : c ≠ '/' := by
    apply he
    rw [← List.mem_reverse, hcs]
    exact List.mem_cons_self _ _
  have hstrip : (x ++ '/' :: e).reverse.dropWhile (fun c => c == '/') =
      (x ++ '/' :: e).reverse := by
    rw [hrev, hcs]
    have hb : (c == '/') = false := by simpa using hc
    simp only [List.cons_append, List.dropWhile, hb]
    rfl
  have hlast : ((x ++ '/' :: e).reverse.takeWhile (fun c => c != '/')) = e.reverse := by
    rw [hrev, takeWhile_stop]
    · intro y hy
      simpa using he y (List.mem_reverse.mp hy)
    · simp
  unfold Base
  simp only [hstrip, List.reverse_reverse, hlast]
  simp [hne]

/-- The dump path under an absolute clean directory, for a prefix without
separators: parent directory and base name. -/
theorem dumpFilename_inside (d pfx : Str) (n : Int) (habs : d.head? = some '/')
    (hclean : Clean d = d) (hp : ∀ c ∈ pfx, c ≠ '/') :
    Dir (dumpFilename d pfx n) = d ∧
      Base (dumpFilename d pfx n) = pfx ++ fmtInteger n ++ ".http".toList := by
  have hreal := realElem_name hp n
  have hd : d ≠ [] := by
    intro h; rw [h] at habs; simp at habs
  have hpath : dumpFilename d pfx n =
      d ++ needSep true d ++ (pfx ++ fmtInteger n ++ ".http".toList) := by
    unfold dumpFilename
    have : Join [d, sprintfName pfx n] = Clean (d ++ '/' :: sprintfName pfx n) := by
      simp [Join, hd, joinSep]
    rw [this]
    exact Clean_abs_snoc habs hclean hreal
  rw [hpath]
  by_cases hlen : d.length = 1
  · have hroot : d = ['/'] := by
      cases d with
      | nil => simp at hlen
      | cons c cs =>
        have hc : c = '/' := by simpa using habs
        have hcs : cs = [] := by
          apply List.eq_nil_of_length_eq_zero
          simpa using hlen
        rw [hc, hcs]
    subst hroot
    have hsep : needSep true ['/'] = [] := by decide
    rw [hsep, List.append_nil]
    constructor
    · unfold Dir
      rw [show ['/'] ++ (pfx ++ fmtInteger n ++ ".http".toList) =
        [] ++ '/' :: (pfx ++ fmtInteger n ++ ".http".toList) from rfl, dirPart_snoc [] hreal.2.2.2]
      decide
    · exact Base_snoc [] hreal.1 hreal.2.2.2
  · have hsep : needSep true d = ['/'] := by
      simp [needSep, hlen]
    rw [hsep]
    have hform : d ++ ['/'] ++ (pfx ++ fmtInteger n ++ ".http".toList) =
        d ++ '/' :: (pfx ++ fmtInteger n ++ ".http".toList) := by simp
    rw [hform]
    constructor
    · unfold Dir
      rw [dirPart_snoc d hreal.2.2.2]
      exact Clean_abs_sep habs hclean
    · exact Base_snoc d hreal.1 hreal.2.2.2

/-! ## Lemmas on the handler -/

theorem serve_create_error {env : Env} {d : Dumper} {req : Request} {err : Str}
    (h : env.create (dumpFilename d.dir d.pfx d.counter.next) = .error err) :
    serve env d req =
      { dumper := { d with counter := (Counter.Next d.counter).2 }
        rw := ResponseWriter.new.WriteHeader StatusInternalServerError
        trace := [Event.logRequest (requestLogLine d.counter.next req),
          Event.create (dumpFilename d.dir d.pfx d.counter.next) false,
          Event.logError (createErrorLine d.counter.next err)] } := by
  simp only [serve, ServeHTTP, Counter.Next, h]
  rfl

theorem serve_write_error {env : Env} {d : Dumper} {req : Request} {u : Unit} {e : WriteError}
    (h : env.create (dumpFilename d.dir d.pfx d.counter.next) = .ok u)
    (hw : env.write (dumpFilename d.dir d.pfx d.counter.next) (Request.Write env req) = .error e) :
    serve env d req =
      { dumper := { d with counter := (Counter.Next d.counter).2 }
        rw := ResponseWriter.new.WriteHeader StatusInternalServerError
        trace := [Event.logRequest (requestLogLine d.counter.next req),
          Event.create (dumpFilename d.dir d.pfx d.counter.next) true,
          Event.write (dumpFilename d.dir d.pfx d.counter.next)
            ((Request.Write env req).take e.written),
          Event.logError (writeErrorLine d.counter.next e.msg)] } := by
  simp only [serve, ServeHTTP, Counter.Next, h, hw]
  rfl

theorem serve_ok {env : Env} {d : Dumper} {req : Request} {u v : Unit}
    (h : env.create (dumpFilename d.dir d.pfx d.counter.next) = .ok u)
    (hw : env.write (dumpFilename d.dir d.pfx d.counter.next) (Request.Write env req) = .ok v) :
    serve env d req =
      { dumper := { d with counter := (Counter.Next d.counter).2 }
        rw := ResponseWriter.new
        trace := [Event.logRequest (requestLogLine d.counter.next req),
          Event.create (dumpFilename d.dir d.pfx d.counter.next) true,
          Event.write (dumpFilename d.dir d.pfx d.counter.next) (Request.Write env req)] } := by
  simp only [serve, ServeHTTP, Counter.Next, h, hw]
  rfl

/-- The three exits of the handler. -/
theorem serve_cases (env : Env) (d : Dumper) (req : Request) :
    (∃ err, env.create (dumpFilename d.dir d.pfx d.counter.next) = .error err) ∨
    (∃ u e, env.create (dumpFilename d.dir d.pfx d.counter.next) = .ok u ∧
      env.write (dumpFilename d.dir d.pfx d.counter.next) (Request.Write env req) = .error e) ∨
    (∃ u v, env.create (dumpFilename d.dir d.pfx d.counter.next) = .ok u ∧
      env.write (dumpFilename d.dir d.pfx d.counter.next) (Request.Write env req) = .ok v) := by
  cases h : env.create (dumpFilename d.dir d.pfx d.counter.next) with
  | error err => exact Or.inl ⟨err, rfl⟩
  | ok u =>
    cases hw : env.write (dumpFilename d.dir d.pfx d.counter.next) (Request.Write env req) with
    | error e => exact Or.inr (Or.inl ⟨u, e, rfl, rfl⟩)
    | ok v => exact Or.inr (Or.inr ⟨u, v, rfl, rfl⟩)

theorem createdName_serve (env : Env) (d : Dumper) (req : Request) :
    createdName (serve env d req).trace = some (dumpFilename d.dir d.pfx d.counter.next) := by
  rcases serve_cases env d req with ⟨err, h⟩ | ⟨u, e, h, hw⟩ | ⟨u, v, h, hw⟩
  · rw [serve_create_error h]; rfl
  · rw [serve_write_error h hw]; rfl
  · rw [serve_ok h hw]; rfl

theorem counter_serve (env : Env) (d : Dumper) (req : Request) :
    (serve env d req).dumper = { d with counter := (Counter.Next d.counter).2 } := by
  rcases serve_cases env d req with ⟨err, h⟩ | ⟨u, e, h, hw⟩ | ⟨u, v, h, hw⟩
  · rw [serve_create_error h]
  · rw [serve_write_error h hw]
  · rw [serve_ok h hw]

/-! ## Lemmas on `Request.Write` -/

theorem valueOrDefault_ne_nil (value : Str) : valueOrDefault value "GET".toList ≠ [] := by
  unfold valueOrDefault
  split
  · assumption
  · decide

/-- Every serialized request is longer than the 18 bytes of `wire10`. -/
theorem Write_length (env : Env) (req : Request) : 21 ≤ (Request.Write env req).length := by
  have h1 : 1 ≤ (valueOrDefault req.Method "GET".toList).length :=
    List.length_pos.mpr (valueOrDefault_ne_nil _)
  have h2 : (" HTTP/1.1\r\n".toList).length = 11 := by decide
  have h3 : ("Host: ".toList).length = 6 := by decide
  have h4 : ("\r\n".toList).length = 2 := by decide
  unfold Request.Write
  simp only [List.length_append, List.length_cons, h2, h3, h4]
  omega

/-- The bytes a successful request leaves in its dump file. -/
theorem fileContent_serve_ok {env : Env} {d : Dumper} {req : Request} {u v : Unit}
    (h : env.create (dumpFilename d.dir d.pfx d.counter.next) = .ok u)
    (hw : env.write (dumpFilename d.dir d.pfx d.counter.next) (Request.Write env req) = .ok v) :
    fileContent (dumpFilename d.dir d.pfx d.counter.next) (serve env d req).trace =
      Request.Write env req := by
  rw [serve_ok h hw]
  simp [fileContent]

/-- A path whose bytes need no escaping is escaped to itself. -/
theorem escape_of_safe {s : Str} (h : ∀ c ∈ s, shouldEscape c = false) : escape s = s := by
  induction s with
  | nil => rfl
  | cons c cs ih =>
    have hc := h c (List.mem_cons_self _ _)
    have ih1 := ih (fun x hx => h x (List.mem_cons_of_mem _ hx))
    simp [escape, hc, ih1]

/-- The request URI of a URL without opaque part and raw path, whose path is
not empty and needs no escaping: the path, and the query behind `?`. -/
theorem RequestURI_plain (u : URL) (ho : u.Opaque = []) (hr : u.RawPath = [])
    (hp : u.Path ≠ []) (hs : ∀ c ∈ u.Path, shouldEscape c = false) :
    u.RequestURI =
      u.Path ++ (if u.ForceQuery = true ∨ u.RawQuery ≠ [] then '?' :: u.RawQuery else []) := by
  have hstar : u.Path ≠ ['*'] := by
    intro hcon
    have := hs '*' (by rw [hcon]; exact List.mem_cons_self _ _)
    revert this
    decide
  have hesc : u.EscapedPath = u.Path := by
    unfold URL.EscapedPath
    rw [if_neg (by simp [hr]), if_neg hstar, escape_of_safe hs]
  unfold URL.RequestURI
  simp only [ho, hesc, if_true, if_neg hp]
  split <;> simp

theorem validHostByte_ascii {c : Char} (h : validHostByte c = true) : c.toNat < 128 := by
  unfold validHostByte at h
  rcases Bool.or_eq_true _ _ |>.mp h with h1 | h1
  · unfold isAlnum at h1
    have := of_decide_eq_true h1
    omega
  · have hall : ∀ x ∈ ['!', '$', '%', '&', '(', ')', '*', '+', ',', '-', '.', ':', ';', '=', '[',
        Char.ofNat 39, ']', '_', '~'], x.toNat < 128 := by decide
    exact hall c (List.elem_iff.mp h1)

theorem isASCII_of_valid {h : Str} (hv : ValidHostHeader h = true) : isASCII h = true := by
  unfold ValidHostHeader at hv
  unfold isASCII
  rw [List.all_eq_true] at hv ⊢
  intro c hc
  exact decide_eq_true (validHostByte_ascii (hv c hc))

/-- A non-empty valid host that does not start with `[` is written on the
`Host` line as it is. -/
theorem writeHost_valid (env : Env) (r : Request) (hne : r.Host ≠ [])
    (hv : ValidHostHeader r.Host = true) (hb : r.Host.head? ≠ some '[') :
    Request.writeHost env r = r.Host := by
  unfold Request.writeHost PunycodeHostPort
  simp only [hne, ne_eq, not_false_eq_true, if_true, isASCII_of_valid hv, hv]
  unfold removeZone
  rw [if_pos hb]

/-- The target and the host written for `CONNECT example.com:443`. -/
theorem writeTarget_connect :
    Request.writeTarget okEnv requestConnect = "example.com:443".toList ∧
      requestConnect.URL.RequestURI = "/".toList := by
  decide

/-! ## The sequence counter -/

/-- C2, as stated, fails at the largest `int`: `Next` returns `maxInt`, and the
counter then holds `minInt`, not `maxInt + 1`. -/
theorem Next_wraps_at_maxInt :
    InRange (Counter.mk maxInt).next ∧
      (Counter.Next (Counter.mk maxInt)).1 = maxInt ∧
      (Counter.Next (Counter.mk maxInt)).2.next = minInt ∧
      (Counter.Next (Counter.mk maxInt)).2.next ≠ maxInt + 1 := by
  decide

/-- C2, amended: for every counter state with stored value `v`, `Next` returns
`v`; it leaves the counter holding `v + 1` when `v` is below the largest
`int`, and the smallest `int` when `v` is the largest. `Next` is a total
function of the counter, whose only content is the stored value. -/
theorem Next_spec (c : Counter) (hr : InRange c.next) :
    (Counter.Next c).1 = c.next ∧
      (c.next < maxInt → (Counter.Next c).2 = { next := c.next + 1 }) ∧
      (c.next = maxInt → (Counter.Next c).2 = { next := minInt }) ∧
      InRange (Counter.Next c).2.next := by
  refine ⟨rfl, ?_, ?_, wrapInt_inRange _⟩
  · intro h
    show Counter.mk (wrapInt (c.next + 1)) = _
    rw [wrapInt_of_inRange]
    unfold InRange minInt maxInt intSize at *
    norm_num at *
    omega
  · intro h
    show Counter.mk (wrapInt (c.next + 1)) = _
    rw [h, wrapInt_maxInt_succ]

/-- Witness of C2, amended: the counter that holds 41. -/
theorem Next_spec_witness :
    InRange (Counter.mk 41).next ∧
      (Counter.Next (Counter.mk 41)).1 = 41 ∧
      ((41 : Int) < maxInt → (Counter.Next (Counter.mk 41)).2 = { next := 41 + 1 }) ∧
      ((41 : Int) = maxInt → (Counter.Next (Counter.mk 41)).2 = { next := minInt }) ∧
      InRange (Counter.Next (Counter.mk 41)).2.next :=
  ⟨by decide, Next_spec (Counter.mk 41) (by decide)⟩

/-- C3, as stated, fails for `N = 2^63 + 1` calls: one of the values handed
out is negative, so the values are not the range `0, ..., N-1`. -/
theorem schedule_overflow :
    ∃ v ∈ returnedValues (List.replicate (2 ^ 63 + 1) ()) Counter.fresh, v < 0 := by
  refine ⟨minInt, ?_, by decide⟩
  rw [returnedValues_eq _ Counter.fresh (by decide), List.length_replicate, List.mem_map]
  refine ⟨2 ^ 63, List.mem_range.mpr (Nat.lt_succ_self _), ?_⟩
  decide

/-- C3, amended: for every `N ≤ 2^63` and every schedule of `N` atomic calls
of `Next` on a fresh counter, whatever the order of the callers, the values
handed out are, in order of execution, `0, 1, ..., N-1`: pairwise distinct
and forming exactly that range. Every caller of the schedule gets one. -/
theorem schedule_returns_range {α : Type} (sched : List α) (h : sched.length ≤ 2 ^ 63) :
    returnedValues sched Counter.fresh =
        (List.range sched.length).map (fun i : Nat => (i : Int)) ∧
      (returnedValues sched Counter.fresh).Nodup ∧
      (∀ v : Int, v ∈ returnedValues sched Counter.fresh ↔ 0 ≤ v ∧ v < sched.length) ∧
      (runSchedule sched Counter.fresh).1.map Prod.fst = sched := by
  have heq : returnedValues sched Counter.fresh =
      (List.range sched.length).map (fun i : Nat => (i : Int)) := by
    rw [returnedValues_eq sched Counter.fresh (by decide)]
    apply List.map_congr_left
    intro i hi
    have hlt : i < 2 ^ 63 := by
      have := List.mem_range.mp hi
      omega
    show wrapInt (0 + (i : Int)) = i
    rw [zero_add, wrapInt_natCast_of_lt hlt]
  refine ⟨heq, ?_, ?_, runSchedule_callers sched _⟩
  · rw [heq]
    exact (List.nodup_range _).map Nat.cast_injective
  · intro v
    rw [heq, List.mem_map]
    constructor
    · rintro ⟨i, hi, rfl⟩
      have := List.mem_range.mp hi
      omega
    · rintro ⟨h0, hlt⟩
      refine ⟨v.toNat, List.mem_range.mpr (by omega), by omega⟩

/-- Witness of C3, amended: three callers, scheduled in the order `c`, `a`,
`b`. -/
theorem schedule_returns_range_witness :
    (['c', 'a', 'b'] : List Char).length ≤ 2 ^ 63 ∧
      returnedValues ['c', 'a', 'b'] Counter.fresh =
        (List.range (['c', 'a', 'b'] : List Char).length).map (fun i : Nat => (i : Int)) ∧
      (returnedValues ['c', 'a', 'b'] Counter.fresh).Nodup ∧
      (∀ v : Int, v ∈ returnedValues ['c', 'a', 'b'] Counter.fresh ↔
        0 ≤ v ∧ v < (['c', 'a', 'b'] : List Char).length) ∧
      (runSchedule ['c', 'a', 'b'] Counter.fresh).1.map Prod.fst = ['c', 'a', 'b'] :=
  ⟨by decide, schedule_returns_range ['c', 'a', 'b'] (by decide)⟩

/-- C4, as stated, fails after `2^63` calls: the counter has wrapped around,
and call number `2^63` returns the smallest `int`, which is below the `0`
returned by the first call. -/
theorem returned_not_increasing :
    nthReturned 0 = 0 ∧ nthReturned (2 ^ 63) = minInt ∧
      ¬ nthReturned 0 < nthReturned (2 ^ 63) := by
  have h0 : nthReturned 0 = 0 := by rw [nthReturned_eq]; decide
  have h1 : nthReturned (2 ^ 63) = minInt := by rw [nthReturned_eq]; decide
  refine ⟨h0, h1, ?_⟩
  rw [h0, h1]
  decide

/-- C4, amended: for every counter state reached from the fresh counter by
`k < 2^63` calls of `Next`, the value the next call returns is strictly
greater than the value returned by any earlier call. -/
theorem returned_strictly_increasing (j k : Nat) (hjk : j < k) (hk : k < 2 ^ 63) :
    nthReturned j < nthReturned k := by
  rw [nthReturned_eq, nthReturned_eq, wrapInt_natCast_of_lt hk,
    wrapInt_natCast_of_lt (Nat.lt_trans hjk hk)]
  exact Int.ofNat_lt.mpr hjk

/-- Witness of C4, amended: calls number 1 and 3. -/
theorem returned_strictly_increasing_witness :
    1 < 3 ∧ 3 < 2 ^ 63 ∧ nthReturned 1 < nthReturned 3 :=
  ⟨by decide, by decide, returned_strictly_increasing 1 3 (by decide) (by decide)⟩

/-! ## The name of the dump file -/

/-- C5: for every directory `d`, prefix `p` and sequence number `n ≥ 0`, the
path `ServeHTTP` passes to `os.Create` is `filepath.Join` of `d` and
`p ++ pad4 n ++ ".http"`, where `pad4 n` is the decimal representation of `n`
left-padded with zeros to at least 4 digits: 4 digits up to 9999, the plain
decimal representation from 10000 on. For `/tmp/dumps`, `req_` and `0` the path
is `/tmp/dumps/req_0000.http`. -/
theorem dump_path_padded (env : Env) (d : Dumper) (req : Request) (h : 0 ≤ d.counter.next) :
    createdName (serve env d req).trace =
        some (Join [d.dir, d.pfx ++ pad4 d.counter.next.toNat ++ ".http".toList]) ∧
      (∀ n : Nat, n ≤ 9999 → (pad4 n).length = 4) ∧
      (∀ n : Nat, 10000 ≤ n → pad4 n = Nat.toDigits 10 n) ∧
      Join ["/tmp/dumps".toList, "req_".toList ++ pad4 0 ++ ".http".toList] =
        "/tmp/dumps/req_0000.http".toList := by
  refine ⟨?_, fun n hn => pad4_length_of_le hn, fun n hn => pad4_of_ge hn, by decide⟩
  rw [createdName_serve]
  unfold dumpFilename sprintfName
  have hnat : d.counter.next.natAbs = d.counter.next.toNat := by omega
  rw [fmtInteger_of_nonneg h, paddedDigits_four, hnat]

/-- Witness of C5: the first request of a dumper with directory `/tmp/dumps`
and prefix `req_` creates `/tmp/dumps/req_0000.http`. -/
theorem dump_path_padded_witness :
    0 ≤ exampleDumper.counter.next ∧
      createdName (serve okEnv exampleDumper request10).trace =
        some "/tmp/dumps/req_0000.http".toList :=
  ⟨by decide, (dump_path_padded okEnv exampleDumper request10 (by decide)).1.trans (by decide)⟩

/-- C6, as stated, fails for the prefix `../x`: with the directory `/tmp/dumps`,
which is what `filepath.Abs` returns for the flag `-dir=/tmp/dumps`, the dump
path is `/tmp/x0000.http`, whose parent directory is `/tmp` and whose base name
is not the name that was formatted. -/
theorem dump_path_escapes_dir :
    Abs (.ok "/home/user".toList) "/tmp/dumps".toList = .ok "/tmp/dumps".toList ∧
      dumpFilename "/tmp/dumps".toList "../x".toList 0 = "/tmp/x0000.http".toList ∧
      Dir (dumpFilename "/tmp/dumps".toList "../x".toList 0) = "/tmp".toList ∧
      Dir (dumpFilename "/tmp/dumps".toList "../x".toList 0) ≠ "/tmp/dumps".toList ∧
      Base (dumpFilename "/tmp/dumps".toList "../x".toList 0) ≠
        sprintfName "../x".toList 0 :=
  ⟨rfl, by decide⟩

/-- C6, amended: for every output directory `d` that `filepath.Abs` returns for
the configured directory (the working directory being absolute), every prefix
`p` without a path separator and every sequence number `n`, the dump path
names a file located in `d`: `d` is absolute and clean, the parent directory
of the path is `d` and its base name is `p`, the padded number and `.http`. -/
theorem dump_path_inside_dir (getwd : Except Str Str) (flag d pfx : Str) (n : Int)
    (hwd : ∀ wd, getwd = .ok wd → wd.head? = some '/') (hd : Abs getwd flag = .ok d)
    (hp : ∀ c ∈ pfx, c ≠ '/') :
    d.head? = some '/' ∧ Clean d = d ∧
      Dir (dumpFilename d pfx n) = d ∧
      Base (dumpFilename d pfx n) = pfx ++ fmtInteger n ++ ".http".toList := by
  obtain ⟨habs, hclean⟩ := Abs_clean hwd hd
  exact ⟨habs, hclean, dumpFilename_inside d pfx n habs hclean hp⟩

/-- Witness of C6, amended: the flag `dumps` under the working directory
`/home/user`, prefix `req_`, sequence number 12345. -/
theorem dump_path_inside_dir_witness :
    (∀ wd, (Except.ok "/home/user".toList : Except Str Str) = .ok wd → wd.head? = some '/') ∧
      Abs (.ok "/home/user".toList) "dumps".toList = .ok "/home/user/dumps".toList ∧
      (∀ c ∈ "req_".toList, c ≠ '/') ∧
      (("/home/user/dumps".toList).head? = some '/' ∧
        Clean "/home/user/dumps".toList = "/home/user/dumps".toList ∧
        Dir (dumpFilename "/home/user/dumps".toList "req_".toList 12345) =
          "/home/user/dumps".toList ∧
        Base (dumpFilename "/home/user/dumps".toList "req_".toList 12345) =
          "req_".toList ++ fmtInteger 12345 ++ ".http".toList) :=
  have hwd : ∀ wd, (Except.ok "/home/user".toList : Except Str Str) = .ok wd →
      wd.head? = some '/' := by
    intro wd h
    injection h with h1
    rw [← h1]
    rfl
  ⟨hwd, rfl, by decide,
    dump_path_inside_dir (.ok "/home/user".toList) "dumps".toList "/home/user/dumps".toList
      "req_".toList 12345 hwd rfl (by decide)⟩

/-- C7: for a fixed directory and prefix, whatever they are, different
sequence numbers give different dump paths, also beyond 9999 and after the
cleaning done by `filepath.Join`; so two invocations of `ServeHTTP` with
different sequence numbers never create the same file. -/
theorem dump_path_injective (dir pfx : Str) (m n : Int) (h : m ≠ n) :
    dumpFilename dir pfx m ≠ dumpFilename dir pfx n ∧
      ∀ (env1 env2 : Env) (req1 req2 : Request),
        createdName (serve env1 { counter := { next := m }, pfx := pfx, dir := dir } req1).trace ≠
          createdName (serve env2 { counter := { next := n }, pfx := pfx, dir := dir } req2).trace := by
  have hne : dumpFilename dir pfx m ≠ dumpFilename dir pfx n :=
    fun heq => h (dumpFilename_injective dir pfx heq)
  refine ⟨hne, fun env1 env2 req1 req2 heq => ?_⟩
  rw [createdName_serve, createdName_serve] at heq
  exact hne (Option.some.inj heq)

/-- Witness of C7: the sequence numbers 9999 and 10000 under a prefix that
`filepath.Join` cleans away. -/
theorem dump_path_injective_witness :
    (9999 : Int) ≠ 10000 ∧
      (dumpFilename "/tmp/dumps".toList "a/../".toList 9999 ≠
          dumpFilename "/tmp/dumps".toList "a/../".toList 10000 ∧
        ∀ (env1 env2 : Env) (req1 req2 : Request),
          createdName (serve env1
              { counter := { next := 9999 }, pfx := "a/../".toList, dir := "/tmp/dumps".toList }
              req1).trace ≠
            createdName (serve env2
              { counter := { next := 10000 }, pfx := "a/../".toList, dir := "/tmp/dumps".toList }
              req2).trace) :=
  ⟨by decide, dump_path_injective "/tmp/dumps".toList "a/../".toList 9999 10000 (by decide)⟩

/-! ## The handler -/

/-- C8: `ServeHTTP` answers with status 200 and an empty body exactly when
both the creation of the file and the write of the request succeed;
otherwise it answers with status 500 and logs an error line that starts with
the padded sequence number; when the creation fails nothing is written to
any file; no status other than 200 and 500 is produced. -/
theorem response_status (env : Env) (d : Dumper) (req : Request) :
    (((response env d req).status = 200 ∧ (response env d req).body = []) ↔
        (createOk env d = true ∧ writeOk env d req = true)) ∧
      (¬ (createOk env d = true ∧ writeOk env d req = true) →
        (response env d req).status = 500 ∧
          ∃ line, Event.logError line ∈ (serve env d req).trace ∧
            ('#' :: fmtInteger d.counter.next) <+: line) ∧
      (createOk env d = false →
        ∀ name bytes, Event.write name bytes ∉ (serve env d req).trace) ∧
      ((response env d req).status = 200 ∨ (response env d req).status = 500) := by
  rcases serve_cases env d req with ⟨err, h⟩ | ⟨u, e, h, hwr⟩ | ⟨u, v, h, hwr⟩
  · have hc : createOk env d = false := by simp [createOk, h]
    have hs : (response env d req).status = 500 := by
      unfold response; rw [serve_create_error h]; rfl
    have hb : (response env d req).body = [] := by
      unfold response; rw [serve_create_error h]; rfl
    refine ⟨?_, ?_, ?_, Or.inr hs⟩
    · rw [hs, hc]; simp
    · intro _
      refine ⟨hs, createErrorLine d.counter.next err, ?_, ?_⟩
      · rw [serve_create_error h]; simp
      · exact ⟨"  create dump file: ".toList ++ err, by simp [createErrorLine]⟩
    · intro _ name bytes
      rw [serve_create_error h]; simp
  · have hc : createOk env d = true := by simp [createOk, h]
    have hw : writeOk env d req = false := by simp [writeOk, hwr]
    have hs : (response env d req).status = 500 := by
      unfold response; rw [serve_write_error h hwr]; rfl
    refine ⟨?_, ?_, ?_, Or.inr hs⟩
    · rw [hs, hw]; simp
    · intro _
      refine ⟨hs, writeErrorLine d.counter.next e.msg, ?_, ?_⟩
      · rw [serve_write_error h hwr]; simp
      · exact ⟨"  write dump: ".toList ++ e.msg, by simp [writeErrorLine]⟩
    · intro hcf
      rw [hc] at hcf
      exact absurd hcf (by decide)
  · have hc : createOk env d = true := by simp [createOk, h]
    have hw : writeOk env d req = true := by simp [writeOk, hwr]
    have hs : (response env d req).status = 200 := by
      unfold response; rw [serve_ok h hwr]; rfl
    have hb : (response env d req).body = [] := by
      unfold response; rw [serve_ok h hwr]; rfl
    refine ⟨?_, ?_, ?_, Or.inl hs⟩
    · rw [hs, hb, hc, hw]; simp
    · intro hn
      exact absurd ⟨hc, hw⟩ hn
    · intro hcf
      rw [hc] at hcf
      exact absurd hcf (by decide)

/-- C9, as stated, fails when the counter holds the largest `int`: the
request takes `maxInt`, and the request after it takes the smallest `int`,
not `maxInt + 1`. -/
theorem consecutive_requests_overflow :
    InRange maxInt ∧
      createdName (serve okEnv { exampleDumper with counter := { next := maxInt } }
          request10).trace =
        some "/tmp/dumps/req_9223372036854775807.http".toList ∧
      (serve okEnv { exampleDumper with counter := { next := maxInt } }
          request10).dumper.counter.next = minInt ∧
      (serve okEnv { exampleDumper with counter := { next := maxInt } }
          request10).dumper.counter.next ≠ maxInt + 1 ∧
      createdName (serve okEnv
          (serve okEnv { exampleDumper with counter := { next := maxInt } } request10).dumper
          request10).trace =
        some "/tmp/dumps/req_-9223372036854775808.http".toList := by
  decide

/-- C9, amended: every invocation of `ServeHTTP`, on each of its exits
(whatever the outcome of the file operations), moves the counter on and
changes nothing else of the dumper; when the sequence number `n` it takes is
below the largest `int`, the counter then holds `n + 1`, so the request
handled directly after it takes `n + 1`, and the two dump files are named
prefix, padded `n`, `.http` and prefix, padded `n + 1`, `.http` in the output
directory. -/
theorem consecutive_requests (env1 env2 : Env) (d : Dumper) (req1 req2 : Request)
    (hr : InRange d.counter.next) (h : d.counter.next < maxInt) :
    (serve env1 d req1).dumper = { d with counter := { next := d.counter.next + 1 } } ∧
      createdName (serve env1 d req1).trace =
        some (Join [d.dir, d.pfx ++ fmtInteger d.counter.next ++ ".http".toList]) ∧
      createdName (serve env2 (serve env1 d req1).dumper req2).trace =
        some (Join [d.dir, d.pfx ++ fmtInteger (d.counter.next + 1) ++ ".http".toList]) := by
  have hnext : (Counter.Next d.counter).2 = { next := d.counter.next + 1 } := by
    show Counter.mk (wrapInt (d.counter.next + 1)) = _
    rw [wrapInt_of_inRange]
    unfold InRange minInt maxInt intSize at *
    norm_num at *
    omega
  have hd : (serve env1 d req1).dumper = { d with counter := { next := d.counter.next + 1 } } := by
    rw [counter_serve, hnext]
  refine ⟨hd, ?_, ?_⟩
  · rw [createdName_serve]; rfl
  · rw [createdName_serve, hd]; rfl

/-- Witness of C9, amended: a request whose file cannot be created, followed
by one that succeeds. -/
theorem consecutive_requests_witness :
    InRange exampleDumper.counter.next ∧ exampleDumper.counter.next < maxInt ∧
      ((serve readOnlyEnv exampleDumper request10).dumper =
          { exampleDumper with counter := { next := exampleDumper.counter.next + 1 } } ∧
        createdName (serve readOnlyEnv exampleDumper request10).trace =
          some (Join [exampleDumper.dir,
            exampleDumper.pfx ++ fmtInteger exampleDumper.counter.next ++ ".http".toList]) ∧
        createdName (serve okEnv (serve readOnlyEnv exampleDumper request10).dumper
            request10).trace =
          some (Join [exampleDumper.dir,
            exampleDumper.pfx ++ fmtInteger (exampleDumper.counter.next + 1) ++
              ".http".toList])) :=
  ⟨by decide, by decide,
    consecutive_requests readOnlyEnv okEnv exampleDumper request10 request10 (by decide)
      (by decide)⟩

/-- C10, as stated, fails on the success path: the file is created, a handle
is open, and the trace of the handler holds no `Close` of it. -/
theorem handle_left_open :
    createOk okEnv exampleDumper = true ∧
      Event.create (dumpFilename exampleDumper.dir exampleDumper.pfx 0) true ∈
        (serve okEnv exampleDumper request10).trace ∧
      Event.close (dumpFilename exampleDumper.dir exampleDumper.pfx 0) ∉
        (serve okEnv exampleDumper request10).trace ∧
      opened (serve okEnv exampleDumper request10).trace = 1 ∧
      closed (serve okEnv exampleDumper request10).trace = 0 := by
  decide

/-- C10, amended: every invocation of `ServeHTTP` calls `os.Create` once and
so opens at most one file handle, exactly one when the creation succeeds and
none when it fails; it never closes the handle: on no exit is there a `Close`
in the trace of the handler. -/
theorem handle_never_closed (env : Env) (d : Dumper) (req : Request) :
    opened (serve env d req).trace ≤ 1 ∧
      (createOk env d = true → opened (serve env d req).trace = 1) ∧
      (createOk env d = false → opened (serve env d req).trace = 0) ∧
      closed (serve env d req).trace = 0 ∧
      ∀ name, Event.close name ∉ (serve env d req).trace := by
  rcases serve_cases env d req with ⟨err, h⟩ | ⟨u, e, h, hwr⟩ | ⟨u, v, h, hwr⟩
  · rw [serve_create_error h]
    refine ⟨by simp [opened], ?_, fun _ => by simp [opened], by simp [closed], by simp⟩
    intro hc
    simp [createOk, h] at hc
  · have hc : createOk env d = true := by simp [createOk, h]
    rw [serve_write_error h hwr]
    refine ⟨by simp [opened], fun _ => by simp [opened], ?_, by simp [closed], by simp⟩
    intro hcf
    rw [hc] at hcf
    exact absurd hcf (by decide)
  · have hc : createOk env d = true := by simp [createOk, h]
    rw [serve_ok h hwr]
    refine ⟨by simp [opened], fun _ => by simp [opened], ?_, by simp [closed], by simp⟩
    intro hcf
    rw [hc] at hcf
    exact absurd hcf (by decide)

end Eyeball
